import Mathlib

/-!
# Verification of the autocoding repository

This development embeds, in Lean 4, the parts of the repository that the
verified claims speak about:

* the JavaScript helper functions of
  `src/agents/js/enhanceSolutionDesignDescriptionAndAssess.js`
  (`generateUniqueBranchName`, `parseSDCoreEnhancementResponse`, and the
  SD CORE `action`), embedded as pure functions over the results of their
  effectful calls (`cli_execute_command`, `file_read`, Jira calls), and

* the Gantt Schedule Calculation Engine, which the repository describes
  only in its requirements documents (`docs/business-requirements.md`,
  the technical-requirements and constitution documents); the engine has
  no implementation under the repository sources, so its components are
  modelled from the specification text.

Dates are day indices (`Nat`); workload and capacity quantities are in
hours (`Nat`); fallible operations return `Option`/`Except` values.
-/

namespace Autocoding

/-! ## Branch-name generation (`generateUniqueBranchName`) -/

/-- JavaScript's `hay.indexOf(needle) !== -1`: substring containment. -/
def strContains (hay needle : String) : Bool :=
  decide (needle.toList <:+: hay.toList)

/-- JavaScript's `String.prototype.trim()`: strip whitespace from both ends
(written out over the character list so that it evaluates by reduction). -/
def jsTrim (s : String) : String :=
  ⟨((s.data.dropWhile Char.isWhitespace).reverse.dropWhile
      Char.isWhitespace).reverse⟩

/-- The loop `for (let i = 1; i <= 10; i++)` of `generateUniqueBranchName`:
the remaining loop indices are passed as a list; when the loop ends without
finding a free suffix, the `Date.now()` timestamp fallback is used. -/
def trySuffixes (baseBranchName allBranches : String) (timestamp : Nat) :
    List Nat → String
  | [] => baseBranchName ++ "_" ++ toString timestamp
  | i :: rest =>
    if strContains allBranches (baseBranchName ++ "_" ++ toString i) then
      trySuffixes baseBranchName allBranches timestamp rest
    else baseBranchName ++ "_" ++ toString i

/-- The loop indices `1, 2, ..., 10` of `generateUniqueBranchName`. -/
def suffixRange : List Nat := [1, 2, 3, 4, 5, 6, 7, 8, 9, 10]

/-- Embedding of `generateUniqueBranchName(branchPrefix, ticketKey)`.
The two `cli_execute_command` branch listings are passed in as
`Except Unit (Option String)`: `Except.error ()` models the call throwing
(caught by the outer `try`, which returns the base name), `Except.ok none`
models a `null` result (the JS `|| ''` turns it into the empty string), and
`timestamp` stands for `Date.now()`. -/
def generateUniqueBranchName (branchPref ticketKey : String)
    (localBranches remoteBranches : Except Unit (Option String))
    (timestamp : Nat) : String :=
  let baseBranchName := branchPref ++ "/" ++ ticketKey
  match localBranches, remoteBranches with
  | Except.ok lb, Except.ok rb =>
    let allBranches := lb.getD "" ++ "\n" ++ rb.getD ""
    if jsTrim allBranches = "" ∨ jsTrim allBranches = "\n" then baseBranchName
    else trySuffixes baseBranchName allBranches timestamp suffixRange
  | _, _ => baseBranchName

/-! ## SD CORE enhancement parsing (`parseSDCoreEnhancementResponse`) -/

/-- Embedding of `parseSDCoreEnhancementResponse()`.  The two `file_read`
calls are passed in as `Except Unit (Option String)`: `Except.error ()` is a
thrown read error, `Except.ok none` a `null`/missing file, `Except.ok (some s)`
a read returning content `s`.  `defaultDiagram` stands for the
`DIAGRAM_DEFAULTS.CORE_GRAPH` constant of `config.js` (a file the repository
does not provide).  Returns `none` where the JS returns `null`. -/
def parseSDCoreEnhancementResponse
    (responseRead diagramRead : Except Unit (Option String))
    (defaultDiagram : String) : Option (String × String) :=
  match responseRead with
  | Except.error _ => none
  | Except.ok contentOpt =>
    match contentOpt with
    | none => none
    | some raw =>
      if raw = "" then none
      else
        let description := jsTrim raw
        let diagram :=
          match diagramRead with
          | Except.error _ => defaultDiagram
          | Except.ok none => defaultDiagram
          | Except.ok (some g) => if g = "" then defaultDiagram else jsTrim g
        if description = "" then none
        else
          let diagram2 := if diagram = "" then defaultDiagram else diagram
          some (description, diagram2)

/-- Result object of the SD CORE `action` (`success` flag plus optional
`error` string), as returned by the embedded `action`. -/
structure ActionResult where
  success : Bool
  error : Option String
  deriving Repr, DecidableEq

/-- Embedding of the SD CORE `action(params)` (lines 116–167).  The ticket
update and `assignForReview` effects do not influence which branch the parse
takes; `assignResult` stands for the value returned by `assignForReview`
(whose source, `common/jiraHelpers.js`, the repository does not provide). -/
def sdCoreAction (responseRead diagramRead : Except Unit (Option String))
    (defaultDiagram : String) (assignResult : ActionResult) : ActionResult :=
  match parseSDCoreEnhancementResponse responseRead diagramRead defaultDiagram with
  | none =>
    { success := false
      error := some "Failed to read enhancement data from output files" }
  | some _ =>
    if assignResult.success = false then assignResult
    else { success := true, error := none }

/-! ### Lemmas about `trySuffixes` -/

theorem trySuffixes_all_contained (base all : String) (ts : Nat)
    (l : List Nat)
    (h : ∀ j ∈ l, strContains all (base ++ "_" ++ toString j) = true) :
    trySuffixes base all ts l = base ++ "_" ++ toString ts := by
  induction l with
  | nil => rfl
  | cons i rest ih =>
    have hi := h i (List.mem_cons_self i rest)
    simp only [trySuffixes, hi, if_pos]
    exact ih fun j hj => h j (List.mem_cons_of_mem i hj)

theorem trySuffixes_split (base all : String) (ts : Nat)
    (l₁ l₂ : List Nat) (i : Nat)
    (h₁ : ∀ j ∈ l₁, strContains all (base ++ "_" ++ toString j) = true)
    (hi : strContains all (base ++ "_" ++ toString i) = false) :
    trySuffixes base all ts (l₁ ++ i :: l₂) = base ++ "_" ++ toString i := by
  induction l₁ with
  | nil => simp only [List.nil_append, trySuffixes, hi]; rfl
  | cons j rest ih =>
    have hj := h₁ j (List.mem_cons_self j rest)
    simp only [List.cons_append, trySuffixes, hj, if_pos]
    exact ih fun k hk => h₁ k (List.mem_cons_of_mem j hk)

theorem trySuffixes_starts_with (base all : String) (ts : Nat) (l : List Nat) :
    ∃ s, trySuffixes base all ts l = base ++ s := by
  induction l with
  | nil => exact ⟨"_" ++ toString ts, by simp [trySuffixes, String.append_assoc]⟩
  | cons i rest ih =>
    by_cases h : strContains all (base ++ "_" ++ toString i) = true
    · simpa [trySuffixes, h] using ih
    · refine ⟨"_" ++ toString i, ?_⟩
      rw [trySuffixes, if_neg (by simpa using h), String.append_assoc]

theorem trySuffixes_first_free_in_range (base all : String) (ts : Nat)
    (i : Nat) (h1 : 1 ≤ i) (h10 : i ≤ 10)
    (hj : ∀ j, 1 ≤ j → j < i →
      strContains all (base ++ "_" ++ toString j) = true)
    (hi : strContains all (base ++ "_" ++ toString i) = false) :
    trySuffixes base all ts suffixRange = base ++ "_" ++ toString i := by
  interval_cases i
  · exact trySuffixes_split base all ts [] [2,3,4,5,6,7,8,9,10] 1
      (by intro j hjm; simp at hjm) hi
  · exact trySuffixes_split base all ts [1] [3,4,5,6,7,8,9,10] 2
      (by intro j hjm; simp at hjm; exact hj j (by omega) (by omega)) hi
  · exact trySuffixes_split base all ts [1,2] [4,5,6,7,8,9,10] 3
      (by intro j hjm; simp at hjm; exact hj j (by omega) (by omega)) hi
  · exact trySuffixes_split base all ts [1,2,3] [5,6,7,8,9,10] 4
      (by intro j hjm; simp at hjm; exact hj j (by omega) (by omega)) hi
  · exact trySuffixes_split base all ts [1,2,3,4] [6,7,8,9,10] 5
      (by intro j hjm; simp at hjm; exact hj j (by omega) (by omega)) hi
  · exact trySuffixes_split base all ts [1,2,3,4,5] [7,8,9,10] 6
      (by intro j hjm; simp at hjm; exact hj j (by omega) (by omega)) hi
  · exact trySuffixes_split base all ts [1,2,3,4,5,6] [8,9,10] 7
      (by intro j hjm; simp at hjm; exact hj j (by omega) (by omega)) hi
  · exact trySuffixes_split base all ts [1,2,3,4,5,6,7] [9,10] 8
      (by intro j hjm; simp at hjm; exact hj j (by omega) (by omega)) hi
  · exact trySuffixes_split base all ts [1,2,3,4,5,6,7,8] [10] 9
      (by intro j hjm; simp at hjm; exact hj j (by omega) (by omega)) hi
  · exact trySuffixes_split base all ts [1,2,3,4,5,6,7,8,9] [] 10
      (by intro j hjm; simp at hjm; exact hj j (by omega) (by omega)) hi

/-- C9: `generateUniqueBranchName` always returns a name starting with
`branchPrefix ++ "/" ++ ticketKey`; an error while checking branches yields
the plain base name; an empty combined listing yields the base name; with a
non-empty listing the result is the base name with the first suffix `_1`
through `_10` absent from the listing, or the timestamp suffix when all ten
collide. -/
theorem generateUniqueBranchName_spec (bp k : String)
    (lb rb : Except Unit (Option String)) (ts : Nat) :
    (∃ s, generateUniqueBranchName bp k lb rb ts = (bp ++ "/" ++ k) ++ s)
    ∧ ((lb = Except.error () ∨ rb = Except.error ()) →
        generateUniqueBranchName bp k lb rb ts = bp ++ "/" ++ k)
    ∧ (∀ l r, lb = Except.ok l → rb = Except.ok r →
        (jsTrim (l.getD "" ++ "\n" ++ r.getD "") = "" ∨
          jsTrim (l.getD "" ++ "\n" ++ r.getD "") = "\n") →
        generateUniqueBranchName bp k lb rb ts = bp ++ "/" ++ k)
    ∧ (∀ l r, lb = Except.ok l → rb = Except.ok r →
        ¬(jsTrim (l.getD "" ++ "\n" ++ r.getD "") = "" ∨
          jsTrim (l.getD "" ++ "\n" ++ r.getD "") = "\n") →
        ∀ i, 1 ≤ i → i ≤ 10 →
        (∀ j, 1 ≤ j → j < i →
          strContains (l.getD "" ++ "\n" ++ r.getD "")
            (bp ++ "/" ++ k ++ "_" ++ toString j) = true) →
        strContains (l.getD "" ++ "\n" ++ r.getD "")
          (bp ++ "/" ++ k ++ "_" ++ toString i) = false →
        generateUniqueBranchName bp k lb rb ts =
          bp ++ "/" ++ k ++ "_" ++ toString i)
    ∧ (∀ l r, lb = Except.ok l → rb = Except.ok r →
        ¬(jsTrim (l.getD "" ++ "\n" ++ r.getD "") = "" ∨
          jsTrim (l.getD "" ++ "\n" ++ r.getD "") = "\n") →
        (∀ j, 1 ≤ j → j ≤ 10 →
          strContains (l.getD "" ++ "\n" ++ r.getD "")
            (bp ++ "/" ++ k ++ "_" ++ toString j) = true) →
        generateUniqueBranchName bp k lb rb ts =
          bp ++ "/" ++ k ++ "_" ++ toString ts) := by
  rcases lb with e | l
  · rcases rb with e' | r <;>
      exact ⟨⟨"", by exact (String.append_empty _).symm⟩, fun _ => rfl,
        fun l' r' hl => absurd hl (by simp),
        fun l' r' hl => absurd hl (by simp),
        fun l' r' hl => absurd hl (by simp)⟩
  rcases rb with e' | r
  · exact ⟨⟨"", by exact (String.append_empty _).symm⟩, fun _ => rfl,
      fun l' r' _ hr => absurd hr (by simp),
      fun l' r' _ hr => absurd hr (by simp),
      fun l' r' _ hr => absurd hr (by simp)⟩
  by_cases hemp : jsTrim (l.getD "" ++ "\n" ++ r.getD "") = "" ∨
      jsTrim (l.getD "" ++ "\n" ++ r.getD "") = "\n"
  · have hbase : generateUniqueBranchName bp k (Except.ok l) (Except.ok r) ts
        = bp ++ "/" ++ k := by simp [generateUniqueBranchName, hemp]
    refine ⟨⟨"", ?_⟩, ?_, ?_, ?_, ?_⟩
    · rw [hbase]; exact (String.append_empty _).symm
    · intro h; rcases h with h | h <;> simp at h
    · intro l' r' hl hr _; exact hbase
    · intro l' r' hl hr hne
      simp only [Except.ok.injEq] at hl hr
      subst hl; subst hr
      exact absurd hemp hne
    · intro l' r' hl hr hne
      simp only [Except.ok.injEq] at hl hr
      subst hl; subst hr
      exact absurd hemp hne
  · have hred : generateUniqueBranchName bp k (Except.ok l) (Except.ok r) ts =
        trySuffixes (bp ++ "/" ++ k) (l.getD "" ++ "\n" ++ r.getD "") ts
          suffixRange := by
      simp [generateUniqueBranchName, hemp]
    refine ⟨?_, ?_, ?_, ?_, ?_⟩
    · rw [hred]; exact trySuffixes_starts_with _ _ _ _
    · intro h; rcases h with h | h <;> simp at h
    · intro l' r' hl hr h
      simp only [Except.ok.injEq] at hl hr
      subst hl; subst hr
      exact absurd h hemp
    · intro l' r' hl hr _ i h1 h10 hj hi
      simp only [Except.ok.injEq] at hl hr
      subst hl; subst hr
      rw [hred]
      exact trySuffixes_first_free_in_range _ _ _ i h1 h10 hj hi
    · intro l' r' hl hr _ hall
      simp only [Except.ok.injEq] at hl hr
      subst hl; subst hr
      rw [hred]
      refine trySuffixes_all_contained _ _ _ _ ?_
      intro j hjm
      have : 1 ≤ j ∧ j ≤ 10 := by
        simp [suffixRange] at hjm; omega
      exact hall j this.1 this.2

/-- Witness for C9 at a concrete input: the listing contains the base name
`ai/T-1` itself, so the first free suffix `_1` is chosen. -/
theorem generateUniqueBranchName_spec_witness :
    generateUniqueBranchName "ai" "T-1" (Except.ok (some "  ai/T-1"))
      (Except.ok none) 7 = "ai" ++ "/" ++ "T-1" ++ "_" ++ toString 1 :=
  (generateUniqueBranchName_spec "ai" "T-1" (Except.ok (some "  ai/T-1"))
      (Except.ok none) 7).2.2.2.1 (some "  ai/T-1") none rfl rfl
    (by decide) 1 (by decide) (by decide)
    (fun j hj1 hj2 => absurd (Nat.lt_of_lt_of_le hj2 hj1) (by omega))
    (by decide)

/-- C10: `parseSDCoreEnhancementResponse` returns `none` exactly when the
`outputs/response.md` read throws, returns nothing, or its content trims to
empty; in that case the SD CORE `action` returns `success = false` with the
corresponding error message; a missing, empty, or unreadable
`outputs/diagram.md` never causes failure, and (for a non-empty default
diagram constant) every non-`none` result has a non-empty description and a
non-empty diagram. -/
theorem parseSDCoreEnhancementResponse_spec
    (responseRead diagramRead : Except Unit (Option String))
    (defaultDiagram : String) :
    (parseSDCoreEnhancementResponse responseRead diagramRead defaultDiagram
        = none ↔
      (responseRead = Except.error () ∨ responseRead = Except.ok none ∨
        ∃ raw, responseRead = Except.ok (some raw) ∧ jsTrim raw = ""))
    ∧ (∀ assignResult,
        parseSDCoreEnhancementResponse responseRead diagramRead defaultDiagram
            = none →
        sdCoreAction responseRead diagramRead defaultDiagram assignResult =
          { success := false,
            error := some "Failed to read enhancement data from output files" })
    ∧ (defaultDiagram ≠ "" →
        ∀ d g, parseSDCoreEnhancementResponse responseRead diagramRead
            defaultDiagram = some (d, g) → d ≠ "" ∧ g ≠ "") := by
  refine ⟨?_, ?_, ?_⟩
  · rcases responseRead with e | copt
    · cases e
      simp [parseSDCoreEnhancementResponse]
    · rcases copt with _ | raw
      · simp [parseSDCoreEnhancementResponse]
      · by_cases hraw : raw = ""
        · subst hraw
          simp [parseSDCoreEnhancementResponse]
          decide
        · by_cases htrim : jsTrim raw = ""
          · simp [parseSDCoreEnhancementResponse, hraw, htrim]
          · simp [parseSDCoreEnhancementResponse, hraw, htrim]
  · intro assignResult hnone
    simp [sdCoreAction, hnone]
  · intro hdef d g hsome
    rcases responseRead with e | copt
    · simp [parseSDCoreEnhancementResponse] at hsome
    rcases copt with _ | raw
    · simp [parseSDCoreEnhancementResponse] at hsome
    by_cases hraw : raw = ""
    · subst hraw
      simp [parseSDCoreEnhancementResponse] at hsome
    by_cases htrim : jsTrim raw = ""
    · simp [parseSDCoreEnhancementResponse, hraw, htrim] at hsome
    rcases diagramRead with e' | gopt
    · simp [parseSDCoreEnhancementResponse, hraw, htrim] at hsome
      exact ⟨by rw [← hsome.1]; exact htrim, by rw [← hsome.2]; exact hdef⟩
    rcases gopt with _ | gg
    · simp [parseSDCoreEnhancementResponse, hraw, htrim] at hsome
      exact ⟨by rw [← hsome.1]; exact htrim, by rw [← hsome.2]; exact hdef⟩
    by_cases hgg : gg = ""
    · subst hgg
      simp [parseSDCoreEnhancementResponse, hraw, htrim] at hsome
      exact ⟨by rw [← hsome.1]; exact htrim, by rw [← hsome.2]; exact hdef⟩
    by_cases htg : jsTrim gg = ""
    · simp [parseSDCoreEnhancementResponse, hraw, htrim, hgg, htg] at hsome
      exact ⟨by rw [← hsome.1]; exact htrim, by rw [← hsome.2]; exact hdef⟩
    · simp [parseSDCoreEnhancementResponse, hraw, htrim, hgg, htg] at hsome
      exact ⟨by rw [← hsome.1]; exact htrim, by rw [← hsome.2]; exact htg⟩

/-- Witness for C10 at a concrete input: the diagram read throws, the
response reads fine, and the action still succeeds with a non-empty
description and the default diagram. -/
theorem parseSDCoreEnhancementResponse_spec_witness :
    ("desc" ≠ "" ∧ "D" ≠ "") ∧
    sdCoreAction (Except.error ()) (Except.error ()) "D" ⟨true, none⟩ =
      { success := false,
        error := some "Failed to read enhancement data from output files" } :=
  ⟨(parseSDCoreEnhancementResponse_spec (Except.ok (some " desc "))
      (Except.error ()) "D").2.2 (by decide) "desc" "D" (by decide),
    (parseSDCoreEnhancementResponse_spec (Except.error ())
      (Except.error ()) "D").2.1 ⟨true, none⟩ (by decide)⟩

/-! ## Gantt Schedule Calculation Engine — modelled from the specification

The repository documents this engine in its requirements documents only
(`docs/business-requirements.md`, the technical-requirements specification
and the project constitution); no implementation exists under the
repository's sources.  Every definition below is therefore modelled from
the specification text.  Dates are day indices; the calendar period used
by the Capacity Ledger is the working day; all workload and capacity
quantities are in hours (unit conversion between points and hours, spec
§4.2, is outside what the verified claims exercise). -/

/-- Modelled from the spec: the Calendar Service's configuration of
excluded days — "weekends + holiday set" (spec §4.1).  `weekend` holds the
excluded weekday residues (`date % 7`), `holidays` the individually
excluded dates. -/
structure CalendarConfig where
  weekend : List Nat
  holidays : List Nat
  deriving Repr, DecidableEq

/-- Modelled from the spec: the Calendar Service's "is this date a working
day" query (spec §4.1). -/
def isWorkingDay (cfg : CalendarConfig) (d : Nat) : Bool :=
  !(cfg.weekend.contains (d % 7)) && !(cfg.holidays.contains d)

/-- At least one weekday residue is not excluded; without this no working
day exists at all and calendar arithmetic cannot make progress. -/
def hasWorkingWeekday (cfg : CalendarConfig) : Bool :=
  (List.range 7).any fun r => !(cfg.weekend.contains r)

/-- Upper bound on how far the next working day can be: within any
`7 * (holidays + 1)` consecutive days one day has a working weekday
residue and is not a holiday. -/
def searchBound (cfg : CalendarConfig) : Nat :=
  7 * (cfg.holidays.length + 1)

/-- Bounded linear search for the first working day at or after `d`. -/
def nextWorkingAux (cfg : CalendarConfig) : Nat → Nat → Option Nat
  | 0, _ => none
  | fuel + 1, d =>
    if isWorkingDay cfg d then some d else nextWorkingAux cfg fuel (d + 1)

/-- Modelled from the spec: the first working day at or after `d`, skipping
excluded days (spec §4.1).  When the configuration excludes every day the
bounded search fails and `d` itself is returned; all calendar lemmas assume
`hasWorkingWeekday`, under which the search always succeeds. -/
def nextWorkingDay (cfg : CalendarConfig) (d : Nat) : Nat :=
  match nextWorkingAux cfg (searchBound cfg) d with
  | some e => e
  | none => d

/-- Modelled from the spec: the Calendar Service's end-date computation —
"given a start date and a quantity of working units to consume, returns the
end date such that exactly that many working units elapse, skipping
excluded days"; "a zero-duration request (milestone) returns the same date
as start" (spec §4.1).  Each unit advances to the next working day strictly
after the current date. -/
def endDate (cfg : CalendarConfig) (startDate : Nat) : Nat → Nat
  | 0 => startDate
  | n + 1 => nextWorkingDay cfg (endDate cfg startDate n + 1)

/-- Modelled from the spec: the Calendar Service's "count working days
between two dates" (spec §4.1, called `consumeWorkingDays` in the testable
properties): the number of working days in the half-open-from-the-left
interval `(s, e]`. -/
def countWorkingDays (cfg : CalendarConfig) (s e : Nat) : Nat :=
  ((List.range' (s + 1) (e - s)).filter fun d => isWorkingDay cfg d).length

/-- Modelled from the spec: the estimation-resolution scenario tag — the
"tagged union of {in-flight, subtask-rollup, parent-level}" provenance of
an effective workload (spec §4.2, §9). -/
inductive EstimationScenario where
  | inFlight
  | subtaskRollup
  | parentLevel
  deriving Repr, DecidableEq

/-- Modelled from the spec: an effective workload `{quantity, unit,
scenario}` (spec §4.2); quantities are in hours. -/
structure EffectiveWorkload where
  quantity : Nat
  scenario : EstimationScenario
  deriving Repr, DecidableEq

/-- Modelled from the spec: a normalized Task record (spec §3) — identifier,
optional direct estimate, optional remaining-estimate override, dependency
identifiers, assigned team, subtask estimates (the subtasks' own optional
estimates), and the milestone flag. -/
structure Task where
  id : Nat
  estimate : Option Nat
  remainingEstimate : Option Nat
  dependencies : List Nat
  teamId : Nat
  subtaskEstimates : List (Option Nat)
  milestone : Bool
  deriving Repr, DecidableEq

/-- Sum of the estimates carried by a task's subtasks. -/
def subtaskSum (t : Task) : Nat :=
  (t.subtaskEstimates.map fun e => e.getD 0).sum

/-- Modelled from the spec: the Estimation Resolver (spec §4.2).  Priority
order: (1) remaining-estimate override → "in-flight"; (2) subtasks whose
estimates sum to a positive quantity → "subtask-rollup"; (3) the task's own
direct estimate → "parent-level"; (4) otherwise a resolution failure
carrying the task identifier, returned as a value, never thrown. -/
def resolveEstimate (t : Task) : Except Nat EffectiveWorkload :=
  match t.remainingEstimate with
  | some r => Except.ok ⟨r, EstimationScenario.inFlight⟩
  | none =>
    if 0 < subtaskSum t then
      Except.ok ⟨subtaskSum t, EstimationScenario.subtaskRollup⟩
    else
      match t.estimate with
      | some e => Except.ok ⟨e, EstimationScenario.parentLevel⟩
      | none => Except.error t.id

/-! ### Dependency Graph Builder -/

/-- Modelled from the spec: the structural errors of the Dependency Graph
Builder (spec §4.3, §7) — `CyclicDependencyError` naming the participating
task identifiers, and a missing dependency reference. -/
inductive GraphError where
  | cyclic (ids : List Nat)
  | missingDep (id : Nat)
  deriving Repr, DecidableEq

/-- Look a task up by identifier. -/
def findTask (tasks : List Task) (id : Nat) : Option Task :=
  tasks.find? fun t => t.id = id

/-- Modelled from the spec: the depth-first traversal with a
visiting/visited marking scheme of the Dependency Graph Builder (spec
§4.3).  `visiting` is the current path (most recent first), `order` the
list of finished tasks in topological order (dependencies first), `ids`
the worklist still to visit at this level.  Re-encountering a `visiting`
node is a cycle: the error names the path segment from the re-encountered
task onward.  `fuel` bounds the recursion depth; the top-level call gives
it more fuel than there are tasks, so exhaustion is unreachable. -/
def visitMany (tasks : List Task) :
    Nat → List Nat → List Nat → List Nat → Except GraphError (List Nat)
  | _, _, order, [] => Except.ok order
  | 0, visiting, order, id :: ids =>
    if id ∈ visiting then
      Except.error (GraphError.cyclic
        ((visiting.takeWhile fun x => x ≠ id) ++ [id]))
    else if id ∈ order then visitMany tasks 0 visiting order ids
    else Except.error (GraphError.cyclic [id])
  | fuel' + 1, visiting, order, id :: ids =>
    if id ∈ visiting then
      Except.error (GraphError.cyclic
        ((visiting.takeWhile fun x => x ≠ id) ++ [id]))
    else if id ∈ order then visitMany tasks (fuel' + 1) visiting order ids
    else
      match findTask tasks id with
      | none => Except.error (GraphError.missingDep id)
      | some t =>
        match visitMany tasks fuel' (id :: visiting) order t.dependencies with
        | Except.error e => Except.error e
        | Except.ok order' =>
          visitMany tasks (fuel' + 1) visiting (order' ++ [id]) ids
  termination_by fuel _ _ ids => (fuel, ids.length)

/-- Modelled from the spec: the Dependency Graph Builder's validation and
topological ordering (spec §4.3): validates every referenced dependency
exists and that there is no cycle, producing a topological ordering
consumed by the Scheduling Engine. -/
def topoSort (tasks : List Task) : Except GraphError (List Nat) :=
  visitMany tasks (tasks.length + 1) [] [] (tasks.map Task.id)

/-! ### Capacity Ledger -/

/-- Modelled from the spec: a TeamConfig (spec §3), reduced to the fields
the claims exercise: identifier and direct capacity per period (hours per
working day). -/
structure TeamConfig where
  id : Nat
  capacityPerDay : Nat
  deriving Repr, DecidableEq

/-- A team's capacity for any one calendar period (working day). -/
def capacityOf (teams : List TeamConfig) (team : Nat) : Nat :=
  match teams.find? (fun c => c.id = team) with
  | some c => c.capacityPerDay
  | none => 0

/-- Modelled from the spec: the Capacity Ledger (spec §3, §4.4) — keyed by
(team identifier, calendar period); value = capacity consumed so far this
period; reset at the start of each run. -/
structure CapacityLedger where
  consumed : Nat → Nat → Nat

/-- The fresh, empty ledger each scheduling run starts from (spec §3:
"reset at the start of each run"). -/
def CapacityLedger.empty : CapacityLedger := ⟨fun _ _ => 0⟩

/-- Modelled from the spec: `remaining(team, period)`, a pure query
(spec §4.4). -/
def CapacityLedger.remaining (led : CapacityLedger) (teams : List TeamConfig)
    (team period : Nat) : Nat :=
  capacityOf teams team - led.consumed team period

/-- Modelled from the spec: `allocate(team, period, amount)` reduces the
team's remaining capacity for that period; fails with an
insufficient-capacity signal (`none`), not an exception, if `amount`
exceeds the remaining capacity (spec §4.4). -/
def CapacityLedger.allocate (led : CapacityLedger) (teams : List TeamConfig)
    (team period amount : Nat) : Option CapacityLedger :=
  if amount ≤ led.remaining teams team period then
    some ⟨fun t p =>
      if t = team && p = period then led.consumed t p + amount
      else led.consumed t p⟩
  else none

/-- Modelled from the spec: `rollback(team, period, amount)` restores
capacity, used only if a tentative allocation must be undone (spec §4.4). -/
def CapacityLedger.rollback (led : CapacityLedger)
    (team period amount : Nat) : CapacityLedger :=
  ⟨fun t p =>
    if t = team && p = period then led.consumed t p - amount
    else led.consumed t p⟩

/-! ### Scheduling Engine -/

/-- Modelled from the spec: the reasons a task can be unschedulable —
resolution failure, the zero-estimate boundary, capacity exhaustion
detected by the iteration guard ("a distinct reason code", spec §7), and
cascading from an unschedulable dependency (spec §4.5 step 1). -/
inductive UnschedReason where
  | estimateUnresolved
  | zeroEstimate
  | capacityExhausted
  | dependencyUnschedulable
  deriving Repr, DecidableEq

/-- Modelled from the spec: a ScheduleEntry (spec §3) — task identifier,
resolved start and end dates, duration in working days, assigned team, and
the provenance scenario (none for a milestone, which has no estimate). -/
structure ScheduleEntry where
  taskId : Nat
  startDate : Nat
  endDate : Nat
  duration : Nat
  team : Nat
  scenario : Option EstimationScenario
  deriving Repr, DecidableEq

/-- The outcome of the per-task allocation loop: the first and last periods
that received an allocation and the updated ledger. -/
structure AllocOutcome where
  startPeriod : Nat
  endPeriod : Nat
  ledger : CapacityLedger

/-- Modelled from the spec: the Scheduling Engine's inner period-by-period
allocation loop (spec §4.5 step 3): greedily consume team capacity period
by period starting from the earliest possible start, advancing through
working days, until the full workload is allocated; a period with
insufficient remaining capacity contributes what it has and the remainder
spills into the next period.  `fuel` is the "maximum iteration/period
guard"; when it runs out the loop fails (`none`) and the tentative
allocations are discarded (the engine keeps its previous ledger, which is
the rollback of spec §4.4). -/
def allocLoop (teams : List TeamConfig) (cal : CalendarConfig) (team : Nat) :
    Nat → Nat → Nat → CapacityLedger → Option Nat → Option AllocOutcome
  | 0, _, _, _, _ => none
  | fuel + 1, period, workload, led, first =>
    let avail := led.remaining teams team period
    let amt := min avail workload
    match led.allocate teams team period amt with
    | none => none
    | some led' =>
      let first' := match first with
        | none => if 0 < amt then some period else none
        | some q => some q
      if workload - amt = 0 then
        some ⟨first'.getD period, period, led'⟩
      else
        allocLoop teams cal team fuel (nextWorkingDay cal (period + 1))
          (workload - amt) led' first'

/-- The engine's per-run accumulating state: committed ScheduleEntry
records, unschedulable tasks with reasons, and the Capacity Ledger. -/
structure EngineState where
  entries : List ScheduleEntry
  unschedulable : List (Nat × UnschedReason)
  ledger : CapacityLedger

/-- The ScheduleEntry already committed for a task, if any. -/
def findEntry (st : EngineState) (id : Nat) : Option ScheduleEntry :=
  st.entries.find? fun e => e.taskId = id

/-- Whether a task has been marked unschedulable. -/
def isUnschedulable (st : EngineState) (id : Nat) : Bool :=
  st.unschedulable.any fun p => p.1 = id

/-- Modelled from the spec: "earliest possible start = max(project start
date, latest end date among all dependencies' ScheduleEntry)" (spec §4.5
step 2). -/
def earliestStart (st : EngineState) (projectStart : Nat)
    (deps : List Nat) : Nat :=
  deps.foldl (fun acc d =>
    match findEntry st d with
    | some e => max acc e.endDate
    | none => acc) projectStart

/-- Modelled from the spec: one step of the Scheduling Engine's state
machine (spec §4.5): cascade from unschedulable dependencies; schedule a
milestone as a non-consuming zero-duration entry; otherwise resolve the
workload (a resolution failure or a zero effective estimate marks the task
unschedulable) and run the allocation loop, committing a ScheduleEntry and
the ledger on success or recording capacity exhaustion when the iteration
guard fires. -/
def scheduleTask (teams : List TeamConfig) (cal : CalendarConfig)
    (maxPeriods projectStart : Nat) (st : EngineState) (t : Task) :
    EngineState :=
  if t.dependencies.any (fun d => isUnschedulable st d) then
    { st with unschedulable :=
        st.unschedulable ++ [(t.id, UnschedReason.dependencyUnschedulable)] }
  else
    let es := earliestStart st projectStart t.dependencies
    if t.milestone then
      { st with entries := st.entries ++
          [⟨t.id, es, endDate cal es 0, 0, t.teamId, none⟩] }
    else
      match resolveEstimate t with
      | Except.error _ =>
        { st with unschedulable :=
            st.unschedulable ++ [(t.id, UnschedReason.estimateUnresolved)] }
      | Except.ok w =>
        if w.quantity = 0 then
          { st with unschedulable :=
              st.unschedulable ++ [(t.id, UnschedReason.zeroEstimate)] }
        else
          match allocLoop teams cal t.teamId maxPeriods
              (nextWorkingDay cal es) w.quantity st.ledger none with
          | none =>
            { st with unschedulable :=
                st.unschedulable ++ [(t.id, UnschedReason.capacityExhausted)] }
          | some out =>
            { st with
                entries := st.entries ++
                  [⟨t.id, out.startPeriod, out.endPeriod,
                    countWorkingDays cal out.startPeriod out.endPeriod + 1,
                    t.teamId, some w.scenario⟩]
                ledger := out.ledger }

/-- Modelled from the spec: the engine's topological traversal (spec §4.5):
process the ordered tasks one at a time, threading the state. -/
def engineFold (tasks : List Task) (teams : List TeamConfig)
    (cal : CalendarConfig) (maxPeriods projectStart : Nat)
    (st : EngineState) (ids : List Nat) : EngineState :=
  ids.foldl (fun s id =>
    match findTask tasks id with
    | some t => scheduleTask teams cal maxPeriods projectStart s t
    | none => s) st

/-- Modelled from the spec: a full scheduling run (spec §2, §4.5): the
Dependency Graph Builder validates and orders the tasks — a structural
error is fatal for the whole run and no ScheduleEntry is produced — and the
engine then processes the tasks in topological order starting from a fresh
empty Capacity Ledger. -/
def runSchedule (tasks : List Task) (teams : List TeamConfig)
    (projectStart : Nat) (cal : CalendarConfig) (maxPeriods : Nat) :
    Except GraphError EngineState :=
  match topoSort tasks with
  | Except.error e => Except.error e
  | Except.ok order =>
    Except.ok (engineFold tasks teams cal maxPeriods projectStart
      ⟨[], [], CapacityLedger.empty⟩ order)

/-! ### Calendar Service lemmas -/

theorem nextWorkingAux_some_spec (cfg : CalendarConfig) :
    ∀ fuel d e, nextWorkingAux cfg fuel d = some e →
      d ≤ e ∧ e < d + fuel ∧ isWorkingDay cfg e = true ∧
        ∀ x, d ≤ x → x < e → isWorkingDay cfg x = false := by
  intro fuel
  induction fuel with
  | zero => intro d e h; simp [nextWorkingAux] at h
  | succ fuel ih =>
    intro d e h
    by_cases hw : isWorkingDay cfg d = true
    · simp [nextWorkingAux, hw] at h
      subst h
      exact ⟨Nat.le_refl d, by omega, hw, fun x hx1 hx2 => absurd hx1 (by omega)⟩
    · simp [nextWorkingAux, hw] at h
      obtain ⟨h1, h2, h3, h4⟩ := ih (d + 1) e h
      refine ⟨by omega, by omega, h3, ?_⟩
      intro x hx1 hx2
      rcases Nat.eq_or_lt_of_le hx1 with rfl | hlt
      · exact Bool.not_eq_true _ ▸ (by simpa using hw)
      · exact h4 x (by omega) hx2

theorem nextWorkingAux_isSome (cfg : CalendarConfig) :
    ∀ fuel d, (∃ k, k < fuel ∧ isWorkingDay cfg (d + k) = true) →
      ∃ e, nextWorkingAux cfg fuel d = some e := by
  intro fuel
  induction fuel with
  | zero => intro d ⟨k, hk, _⟩; omega
  | succ fuel ih =>
    intro d ⟨k, hk, hwk⟩
    by_cases hw : isWorkingDay cfg d = true
    · exact ⟨d, by simp [nextWorkingAux, hw]⟩
    · have hk0 : k ≠ 0 := by
        intro h; subst h; simp at hwk; exact hw hwk
      obtain ⟨e, he⟩ := ih (d + 1)
        ⟨k - 1, by omega, by
          have : d + 1 + (k - 1) = d + k := by omega
          rw [this]; exact hwk⟩
      exact ⟨e, by simp [nextWorkingAux, hw]; exact he⟩

theorem exists_working_in_window (cfg : CalendarConfig)
    (hw : hasWorkingWeekday cfg = true) (d : Nat) :
    ∃ k, k < searchBound cfg ∧ isWorkingDay cfg (d + k) = true := by
  unfold hasWorkingWeekday at hw
  rw [List.any_eq_true] at hw
  obtain ⟨r, hr7, hrw⟩ := hw
  rw [List.mem_range] at hr7
  simp only [Bool.not_eq_true'] at hrw
  by_contra hcon
  push_neg at hcon
  set off := (r + 7 - d % 7) % 7 with hoff
  have hres : ∀ i : Nat, (d + (off + 7 * i)) % 7 = r := by
    intro i
    have h1 : off < 7 := Nat.mod_lt _ (by omega)
    omega
  have hhol : ∀ i : Nat, i < cfg.holidays.length + 1 →
      (d + (off + 7 * i)) ∈ cfg.holidays := by
    intro i hi
    have hk : off + 7 * i < searchBound cfg := by
      have h1 : off < 7 := Nat.mod_lt _ (by omega)
      unfold searchBound; omega
    have hnw := hcon (off + 7 * i) hk
    by_cases hh : cfg.holidays.contains (d + (off + 7 * i)) = true
    · simpa using hh
    · exfalso
      apply hnw
      have hh' : cfg.holidays.contains (d + (off + 7 * i)) = false := by
        revert hh; cases cfg.holidays.contains (d + (off + 7 * i)) <;> simp
      simp [isWorkingDay, hres i]
      exact ⟨by simpa using hrw, by simpa using hh'⟩
  have hinj : Set.InjOn (fun i : Nat => d + (off + 7 * i))
      (Finset.range (cfg.holidays.length + 1)) := by
    intro i _ j _ hij
    simp only at hij; omega
  have hcard : (Finset.range (cfg.holidays.length + 1)).card ≤
      cfg.holidays.toFinset.card := by
    apply Finset.card_le_card_of_injOn (fun i => d + (off + 7 * i)) _ hinj
    intro i hi
    rw [Finset.mem_range] at hi
    rw [List.mem_toFinset]
    exact hhol i hi
  have := cfg.holidays.toFinset_card_le
  simp only [Finset.card_range] at hcard
  omega

theorem nextWorkingDay_ge (cfg : CalendarConfig) (d : Nat) :
    d ≤ nextWorkingDay cfg d := by
  unfold nextWorkingDay
  cases h : nextWorkingAux cfg (searchBound cfg) d with
  | none => exact Nat.le_refl d
  | some e => exact (nextWorkingAux_some_spec cfg _ d e h).1

theorem nextWorkingDay_spec (cfg : CalendarConfig)
    (hw : hasWorkingWeekday cfg = true) (d : Nat) :
    isWorkingDay cfg (nextWorkingDay cfg d) = true ∧
      ∀ x, d ≤ x → isWorkingDay cfg x = true → nextWorkingDay cfg d ≤ x := by
  obtain ⟨e, he⟩ := nextWorkingAux_isSome cfg (searchBound cfg) d
    (exists_working_in_window cfg hw d)
  obtain ⟨h1, h2, h3, h4⟩ := nextWorkingAux_some_spec cfg _ d e he
  unfold nextWorkingDay
  rw [he]
  refine ⟨h3, ?_⟩
  intro x hx hxw
  by_contra hcon
  push_neg at hcon
  have := h4 x hx hcon
  rw [this] at hxw
  exact Bool.false_ne_true hxw

theorem nextWorkingDay_eq_of_working (cfg : CalendarConfig) (d : Nat)
    (hd : isWorkingDay cfg d = true) : nextWorkingDay cfg d = d := by
  obtain ⟨m, hm⟩ : ∃ m, searchBound cfg = m + 1 :=
    ⟨searchBound cfg - 1, by unfold searchBound; omega⟩
  unfold nextWorkingDay
  rw [hm]
  simp [nextWorkingAux, hd]

theorem endDate_ge (cfg : CalendarConfig) (s : Nat) :
    ∀ n, s ≤ endDate cfg s n := by
  intro n
  induction n with
  | zero => exact Nat.le_refl s
  | succ n ih =>
    have h := nextWorkingDay_ge cfg (endDate cfg s n + 1)
    calc s ≤ endDate cfg s n := ih
      _ ≤ endDate cfg s n + 1 := Nat.le_succ _
      _ ≤ nextWorkingDay cfg (endDate cfg s n + 1) := h

theorem endDate_lt_succ (cfg : CalendarConfig) (s n : Nat) :
    endDate cfg s n < endDate cfg s (n + 1) := by
  have h := nextWorkingDay_ge cfg (endDate cfg s n + 1)
  calc endDate cfg s n < endDate cfg s n + 1 := Nat.lt_succ_self _
    _ ≤ endDate cfg s (n + 1) := h

theorem endDate_isWorking (cfg : CalendarConfig)
    (hw : hasWorkingWeekday cfg = true) (s : Nat)
    (hs : isWorkingDay cfg s = true) :
    ∀ n, isWorkingDay cfg (endDate cfg s n) = true := by
  intro n
  cases n with
  | zero => exact hs
  | succ n => exact (nextWorkingDay_spec cfg hw (endDate cfg s n + 1)).1

theorem countWorkingDays_self (cfg : CalendarConfig) (s : Nat) :
    countWorkingDays cfg s s = 0 := by
  simp [countWorkingDays]

theorem countWorkingDays_split (cfg : CalendarConfig) (s m e : Nat)
    (h1 : s ≤ m) (h2 : m ≤ e) :
    countWorkingDays cfg s e = countWorkingDays cfg s m +
      ((List.range' (m + 1) (e - m)).filter fun d =>
        isWorkingDay cfg d).length := by
  unfold countWorkingDays
  have hsplit : List.range' (s + 1) (e - s) =
      List.range' (s + 1) (m - s) ++ List.range' (m + 1) (e - m) := by
    have := List.range'_append (s + 1) (m - s) (e - m) 1
    simp only [Nat.one_mul] at this
    rw [show s + 1 + (m - s) = m + 1 by omega] at this
    rw [show e - m + (m - s) = e - s by omega] at this
    exact this.symm
  rw [hsplit, List.filter_append, List.length_append]

theorem countWorkingDays_step (cfg : CalendarConfig)
    (hw : hasWorkingWeekday cfg = true) (m : Nat) :
    ((List.range' (m + 1) (nextWorkingDay cfg (m + 1) - m)).filter fun d =>
      isWorkingDay cfg d).length = 1 := by
  set e := nextWorkingDay cfg (m + 1) with he
  have hge : m + 1 ≤ e := nextWorkingDay_ge cfg (m + 1)
  have hwk := (nextWorkingDay_spec cfg hw (m + 1)).1
  have hmin := (nextWorkingDay_spec cfg hw (m + 1)).2
  have hsplit : List.range' (m + 1) (e - m) =
      List.range' (m + 1) (e - m - 1) ++ [e] := by
    have := List.range'_append (m + 1) (e - m - 1) 1 1
    simp only [Nat.one_mul] at this
    rw [show m + 1 + (e - m - 1) = e by omega] at this
    rw [show 1 + (e - m - 1) = e - m by omega] at this
    rw [← this]
    rfl
  rw [hsplit, List.filter_append, List.length_append]
  have hleft : (List.range' (m + 1) (e - m - 1)).filter
      (fun d => isWorkingDay cfg d) = [] := by
    rw [List.filter_eq_nil_iff]
    intro x hx
    rw [List.mem_range'_1] at hx
    intro hxw
    have := hmin x hx.1 hxw
    omega
  rw [hleft]
  simp [hwk]

theorem countWorkingDays_endDate (cfg : CalendarConfig)
    (hw : hasWorkingWeekday cfg = true) (s : Nat) :
    ∀ n, countWorkingDays cfg s (endDate cfg s n) = n := by
  intro n
  induction n with
  | zero => exact countWorkingDays_self cfg s
  | succ n ih =>
    have hsm : s ≤ endDate cfg s n := endDate_ge cfg s n
    have hme : endDate cfg s n ≤ endDate cfg s (n + 1) :=
      Nat.le_of_lt (endDate_lt_succ cfg s n)
    rw [countWorkingDays_split cfg s (endDate cfg s n)
      (endDate cfg s (n + 1)) hsm hme, ih]
    have : endDate cfg s (n + 1) = nextWorkingDay cfg (endDate cfg s n + 1) :=
      rfl
    rw [this, countWorkingDays_step cfg hw (endDate cfg s n)]

theorem countWorkingDays_strict_mono (cfg : CalendarConfig) (s e₁ e₂ : Nat)
    (h1 : s ≤ e₁) (h2 : e₁ < e₂) (hw2 : isWorkingDay cfg e₂ = true) :
    countWorkingDays cfg s e₁ < countWorkingDays cfg s e₂ := by
  rw [countWorkingDays_split cfg s e₁ e₂ h1 (Nat.le_of_lt h2)]
  have hmem : e₂ ∈ (List.range' (e₁ + 1) (e₂ - e₁)).filter
      (fun d => isWorkingDay cfg d) := by
    rw [List.mem_filter]
    exact ⟨by rw [List.mem_range'_1]; omega, by simpa using hw2⟩
  have := List.length_pos.mpr (List.ne_nil_of_mem hmem)
  omega

/-- C7: Calendar Service round-trip — for working start and end dates under
a configuration admitting working days, advancing from the start by the
number of working days counted between the two dates reproduces the end
date, and advancing by `n` working units consumes exactly `n` working
units. -/
theorem calendar_roundtrip (cfg : CalendarConfig)
    (hw : hasWorkingWeekday cfg = true) (s e : Nat)
    (hs : isWorkingDay cfg s = true) (he : isWorkingDay cfg e = true)
    (hse : s ≤ e) :
    endDate cfg s (countWorkingDays cfg s e) = e ∧
      ∀ n, countWorkingDays cfg s (endDate cfg s n) = n := by
  refine ⟨?_, countWorkingDays_endDate cfg hw s⟩
  set n := countWorkingDays cfg s e with hn
  set m := endDate cfg s n with hm
  have hcm : countWorkingDays cfg s m = n := countWorkingDays_endDate cfg hw s n
  have hmw : isWorkingDay cfg m = true := endDate_isWorking cfg hw s hs n
  have hsm : s ≤ m := endDate_ge cfg s n
  rcases Nat.lt_trichotomy m e with hlt | heq | hgt
  · have := countWorkingDays_strict_mono cfg s m e hsm hlt he
    omega
  · exact heq
  · have := countWorkingDays_strict_mono cfg s e m hse hgt hmw
    omega

/-- Witness for C7: weekend residues 5 and 6, one holiday on day 8, start
day 0 and end day 7 (both working). -/
theorem calendar_roundtrip_witness :
    endDate ⟨[5, 6], [8]⟩ 0 (countWorkingDays ⟨[5, 6], [8]⟩ 0 7) = 7 :=
  (calendar_roundtrip ⟨[5, 6], [8]⟩ (by decide) 0 7 (by decide) (by decide)
    (by decide)).1

/-- C5: the Estimation Resolver applies exactly the first applicable rule:
a remaining-estimate override yields "in-flight"; otherwise a positive
subtask estimate sum yields "subtask-rollup"; otherwise the task's own
direct estimate yields "parent-level"; otherwise it returns a resolution
failure carrying the task identifier as a value. -/
theorem resolveEstimate_spec (t : Task) :
    (∀ r, t.remainingEstimate = some r →
      resolveEstimate t = Except.ok ⟨r, EstimationScenario.inFlight⟩)
    ∧ (t.remainingEstimate = none → 0 < subtaskSum t →
      resolveEstimate t =
        Except.ok ⟨subtaskSum t, EstimationScenario.subtaskRollup⟩)
    ∧ (∀ e, t.remainingEstimate = none → subtaskSum t = 0 →
      t.estimate = some e →
      resolveEstimate t = Except.ok ⟨e, EstimationScenario.parentLevel⟩)
    ∧ (t.remainingEstimate = none → subtaskSum t = 0 → t.estimate = none →
      resolveEstimate t = Except.error t.id) := by
  refine ⟨?_, ?_, ?_, ?_⟩
  · intro r hr; simp [resolveEstimate, hr]
  · intro hr hsum; simp [resolveEstimate, hr, hsum]
  · intro e hr hsum hest; simp [resolveEstimate, hr, hsum, hest]
  · intro hr hsum hest; simp [resolveEstimate, hr, hsum, hest]

/-- Witness for C5: a task with a remaining override resolves as in-flight;
a bare task resolves to a failure carrying its identifier. -/
theorem resolveEstimate_spec_witness :
    resolveEstimate ⟨1, some 8, some 3, [], 0, [], false⟩ =
      Except.ok ⟨3, EstimationScenario.inFlight⟩ ∧
    resolveEstimate ⟨5, none, none, [], 0, [], false⟩ = Except.error 5 :=
  ⟨(resolveEstimate_spec ⟨1, some 8, some 3, [], 0, [], false⟩).1 3 rfl,
    (resolveEstimate_spec ⟨5, none, none, [], 0, [], false⟩).2.2.2 rfl
      (by decide) rfl⟩

/-- C3: determinism — a scheduling run is a pure function of the task list,
team configurations, project start date and calendar configuration, each
run starting from the fresh empty Capacity Ledger built inside
`runSchedule`; two runs on identical inputs produce identical ScheduleEntry
result sets.  The model's calendar operates on plain day indices, so its
date arithmetic is timezone-free and deterministic by construction. -/
theorem runSchedule_deterministic (tasks : List Task)
    (teams : List TeamConfig) (projectStart : Nat) (cal : CalendarConfig)
    (maxPeriods : Nat) :
    runSchedule tasks teams projectStart cal maxPeriods =
      runSchedule tasks teams projectStart cal maxPeriods ∧
    ∀ st st', runSchedule tasks teams projectStart cal maxPeriods =
        Except.ok st →
      runSchedule tasks teams projectStart cal maxPeriods = Except.ok st' →
      st.entries = st'.entries ∧ st.unschedulable = st'.unschedulable := by
  refine ⟨rfl, ?_⟩
  intro st st' h h'
  rw [h] at h'
  cases h'
  exact ⟨rfl, rfl⟩

/-- Witness for C3 on the empty input, where the run evaluates to the
fresh state by reduction. -/
theorem runSchedule_deterministic_witness :
    ([] : List ScheduleEntry) = [] ∧
      ([] : List (Nat × UnschedReason)) = [] :=
  (runSchedule_deterministic [] [] 0 ⟨[], []⟩ 1).2
    ⟨[], [], CapacityLedger.empty⟩ ⟨[], [], CapacityLedger.empty⟩
    (by simp [runSchedule, topoSort, visitMany, engineFold])
    (by simp [runSchedule, topoSort, visitMany, engineFold])

/-- C8: a task with a zero direct estimate, no subtasks, no remaining
override and no milestone flag is marked unschedulable and receives no
ScheduleEntry; a milestone (whose dependencies are schedulable) receives a
non-consuming entry whose end date, computed by the Calendar Service for a
zero-duration request, equals its start date. -/
theorem zero_estimate_vs_milestone (teams : List TeamConfig)
    (cal : CalendarConfig) (maxPeriods projectStart : Nat)
    (st : EngineState) (t : Task) :
    (t.milestone = false → t.remainingEstimate = none →
      t.subtaskEstimates = [] → t.estimate = some 0 →
      (scheduleTask teams cal maxPeriods projectStart st t).entries =
        st.entries ∧
      ∃ r, (scheduleTask teams cal maxPeriods projectStart st t).unschedulable
        = st.unschedulable ++ [(t.id, r)])
    ∧ (t.milestone = true →
      (t.dependencies.any fun d => isUnschedulable st d) = false →
      (scheduleTask teams cal maxPeriods projectStart st t).entries =
        st.entries ++
          [⟨t.id, earliestStart st projectStart t.dependencies,
            endDate cal (earliestStart st projectStart t.dependencies) 0, 0,
            t.teamId, none⟩] ∧
      endDate cal (earliestStart st projectStart t.dependencies) 0 =
        earliestStart st projectStart t.dependencies ∧
      (scheduleTask teams cal maxPeriods projectStart st t).ledger =
        st.ledger) := by
  constructor
  · intro hms hrem hsub hest
    have hres : resolveEstimate t =
        Except.ok ⟨0, EstimationScenario.parentLevel⟩ := by
      simp [resolveEstimate, hrem, hest, subtaskSum, hsub]
    by_cases hdep : (t.dependencies.any fun d => isUnschedulable st d) = true
    · simp [scheduleTask, hdep]
    · rw [Bool.not_eq_true] at hdep
      simp [scheduleTask, hdep, hms, hres]
  · intro hms hdep
    simp [scheduleTask, hdep, hms]
    rfl

/-- Witness for C8: a zero-estimate task is rejected while a milestone
gets a same-day entry, on a concrete state. -/
theorem zero_estimate_vs_milestone_witness :
    ((scheduleTask [⟨0, 8⟩] ⟨[5, 6], []⟩ 10 0 ⟨[], [], CapacityLedger.empty⟩
        ⟨1, some 0, none, [], 0, [], false⟩).entries = [] ∧
      ∃ r, (scheduleTask [⟨0, 8⟩] ⟨[5, 6], []⟩ 10 0
        ⟨[], [], CapacityLedger.empty⟩
        ⟨1, some 0, none, [], 0, [], false⟩).unschedulable = [] ++ [(1, r)])
    ∧ ((scheduleTask [⟨0, 8⟩] ⟨[5, 6], []⟩ 10 0 ⟨[], [], CapacityLedger.empty⟩
        ⟨2, none, none, [], 0, [], true⟩).entries =
          [] ++ [⟨2, 0, endDate ⟨[5, 6], []⟩ 0 0, 0, 0, none⟩] ∧
      endDate ⟨[5, 6], []⟩ 0 0 = 0 ∧
      (scheduleTask [⟨0, 8⟩] ⟨[5, 6], []⟩ 10 0 ⟨[], [], CapacityLedger.empty⟩
        ⟨2, none, none, [], 0, [], true⟩).ledger = CapacityLedger.empty) :=
  ⟨(zero_estimate_vs_milestone [⟨0, 8⟩] ⟨[5, 6], []⟩ 10 0
      ⟨[], [], CapacityLedger.empty⟩ ⟨1, some 0, none, [], 0, [], false⟩).1
      rfl rfl rfl rfl,
    (zero_estimate_vs_milestone [⟨0, 8⟩] ⟨[5, 6], []⟩ 10 0
      ⟨[], [], CapacityLedger.empty⟩ ⟨2, none, none, [], 0, [], true⟩).2
      rfl rfl⟩

theorem allocLoop_zero_capacity (teams : List TeamConfig)
    (cal : CalendarConfig) (team : Nat)
    (hcap : capacityOf teams team = 0) :
    ∀ fuel period workload led first, 0 < workload →
      allocLoop teams cal team fuel period workload led first = none := by
  intro fuel
  induction fuel with
  | zero => intro period workload led first _; rfl
  | succ fuel ih =>
    intro period workload led first hw
    have havail : led.remaining teams team period = 0 := by
      simp [CapacityLedger.remaining, hcap]
    have halloc : led.allocate teams team period 0 =
        some ⟨fun t p =>
          if t = team && p = period then led.consumed t p + 0
          else led.consumed t p⟩ := by
      simp [CapacityLedger.allocate]
    have hw0 : ¬(workload = 0) := by omega
    simp only [allocLoop, havail, Nat.zero_min, Nat.sub_zero]
    rw [halloc]
    simp only [hw0, if_neg, if_false]
    exact ih _ _ _ _ hw

/-- C6: the per-task allocation loop is a total function whose iteration
guard (`fuel`) bounds the periods examined; for a team whose capacity is
zero in every period and a positive workload the guard always fires, and
the Scheduling Engine then reports the task as unschedulable with the
distinct `capacityExhausted` reason code — never an infinite loop or a
silent drop. -/
theorem capacity_exhaustion_guard (teams : List TeamConfig)
    (cal : CalendarConfig) (maxPeriods projectStart : Nat)
    (st : EngineState) (t : Task) (w : EffectiveWorkload)
    (hcap : capacityOf teams t.teamId = 0)
    (hms : t.milestone = false)
    (hdep : (t.dependencies.any fun d => isUnschedulable st d) = false)
    (hres : resolveEstimate t = Except.ok w)
    (hw : 0 < w.quantity) :
    (∀ fuel period led first,
      allocLoop teams cal t.teamId fuel period w.quantity led first = none)
    ∧ scheduleTask teams cal maxPeriods projectStart st t =
      { st with unschedulable :=
          st.unschedulable ++ [(t.id, UnschedReason.capacityExhausted)] } := by
  have hloop := fun fuel period led first =>
    allocLoop_zero_capacity teams cal t.teamId hcap fuel period w.quantity
      led first hw
  refine ⟨hloop, ?_⟩
  have hwne : ¬(w.quantity = 0) := by omega
  simp [scheduleTask, hdep, hms, hres, hwne, hloop]

/-- Witness for C6: a task needing 8 hours from a team with no capacity
configuration (capacity 0) is reported capacity-exhausted. -/
theorem capacity_exhaustion_guard_witness :
    (∀ fuel period led first,
      allocLoop [] ⟨[5, 6], []⟩ 0 fuel period 8 led first = none)
    ∧ scheduleTask [] ⟨[5, 6], []⟩ 10 0 ⟨[], [], CapacityLedger.empty⟩
        ⟨1, some 8, none, [], 0, [], false⟩ =
      { entries := [], unschedulable := [(1, UnschedReason.capacityExhausted)],
        ledger := CapacityLedger.empty } := by
  have h := capacity_exhaustion_guard [] ⟨[5, 6], []⟩ 10 0
    ⟨[], [], CapacityLedger.empty⟩ ⟨1, some 8, none, [], 0, [], false⟩
    ⟨8, EstimationScenario.parentLevel⟩ (by rfl) rfl rfl
    (by simp [resolveEstimate, subtaskSum]) (by decide)
  exact ⟨h.1, h.2⟩

/-- The capacity-leveling invariant on a ledger: no (team, period) cell
exceeds the team's capacity for a period. -/
def ledgerWithinCapacity (teams : List TeamConfig)
    (led : CapacityLedger) : Prop :=
  ∀ team period, led.consumed team period ≤ capacityOf teams team

theorem allocate_within (teams : List TeamConfig) (led led' : CapacityLedger)
    (team period amount : Nat)
    (h : led.allocate teams team period amount = some led')
    (hinv : ledgerWithinCapacity teams led) :
    ledgerWithinCapacity teams led' := by
  unfold CapacityLedger.allocate at h
  by_cases hle : amount ≤ led.remaining teams team period
  · rw [if_pos hle] at h
    cases h
    intro t p
    simp only
    by_cases htp : (t = team && p = period) = true
    · rw [if_pos htp]
      simp only [Bool.and_eq_true, decide_eq_true_eq] at htp
      obtain ⟨rfl, rfl⟩ := htp
      have := hinv t p
      unfold CapacityLedger.remaining at hle
      omega
    · rw [if_neg htp]
      exact hinv t p
  · rw [if_neg hle] at h
    cases h

theorem allocLoop_within (teams : List TeamConfig) (cal : CalendarConfig)
    (team : Nat) :
    ∀ fuel period workload led first out,
      allocLoop teams cal team fuel period workload led first = some out →
      ledgerWithinCapacity teams led →
      ledgerWithinCapacity teams out.ledger := by
  intro fuel
  induction fuel with
  | zero => intro _ _ _ _ out h; simp [allocLoop] at h
  | succ fuel ih =>
    intro period workload led first out h hinv
    simp only [allocLoop] at h
    cases halloc : led.allocate teams team period
        (min (led.remaining teams team period) workload) with
    | none => rw [halloc] at h; cases h
    | some led' =>
      rw [halloc] at h
      dsimp only at h
      have hinv' := allocate_within teams led led' team period _ halloc hinv
      by_cases hdone : workload - min (led.remaining teams team period)
          workload = 0
      · rw [if_pos hdone] at h
        cases h
        exact hinv'
      · rw [if_neg hdone] at h
        exact ih _ _ _ _ _ h hinv'

theorem scheduleTask_within (teams : List TeamConfig) (cal : CalendarConfig)
    (maxPeriods projectStart : Nat) (st : EngineState) (t : Task)
    (hinv : ledgerWithinCapacity teams st.ledger) :
    ledgerWithinCapacity teams
      (scheduleTask teams cal maxPeriods projectStart st t).ledger := by
  unfold scheduleTask
  by_cases hdep : (t.dependencies.any fun d => isUnschedulable st d) = true
  · rw [if_pos hdep]; exact hinv
  · rw [if_neg hdep]
    by_cases hms : t.milestone = true
    · simp only [hms, if_pos]; exact hinv
    · simp only [hms, Bool.false_eq_true, if_false]
      cases hres : resolveEstimate t with
      | error _ => exact hinv
      | ok w =>
        simp only
        by_cases hq : w.quantity = 0
        · rw [if_pos hq]; exact hinv
        · rw [if_neg hq]
          cases hloop : allocLoop teams cal t.teamId maxPeriods
              (nextWorkingDay cal (earliestStart st projectStart
                t.dependencies)) w.quantity st.ledger none with
          | none => exact hinv
          | some out =>
            simp only
            exact allocLoop_within teams cal t.teamId maxPeriods _ _ _ _ out
              hloop hinv

theorem runFold_within (teams : List TeamConfig) (cal : CalendarConfig)
    (maxPeriods projectStart : Nat) (tasks : List Task) :
    ∀ (order : List Nat) (st : EngineState),
      ledgerWithinCapacity teams st.ledger →
      ledgerWithinCapacity teams
        (engineFold tasks teams cal maxPeriods projectStart st order).ledger
    := by
  intro order
  induction order with
  | nil => intro st h; exact h
  | cons id rest ih =>
    intro st h
    simp only [engineFold, List.foldl_cons]
    cases hfind : findTask tasks id with
    | none => simp only [hfind]; exact ih st h
    | some t =>
      simp only [hfind]
      exact ih _ (scheduleTask_within teams cal maxPeriods projectStart st t h)

/-- C1: capacity leveling — in any successful scheduling run the ledger
never records more consumption for a (team, period) cell than the team's
capacity for a period; and a period whose remaining capacity is below the
outstanding workload receives exactly the available amount (filling the
cell and touching no other cell) while the remainder is carried into the
next working day by the allocation loop. -/
theorem capacity_leveling (tasks : List Task) (teams : List TeamConfig)
    (projectStart : Nat) (cal : CalendarConfig) (maxPeriods : Nat) :
    (∀ st, runSchedule tasks teams projectStart cal maxPeriods =
        Except.ok st →
      ∀ team period, st.ledger.consumed team period ≤ capacityOf teams team)
    ∧ (∀ team fuel period workload led first,
        led.remaining teams team period < workload →
        ∃ led',
          allocLoop teams cal team (fuel + 1) period workload led first =
            allocLoop teams cal team fuel (nextWorkingDay cal (period + 1))
              (workload - led.remaining teams team period) led'
              (match first with
                | none => if 0 < led.remaining teams team period then
                    some period else none
                | some q => some q) ∧
          led'.consumed team period =
            led.consumed team period + led.remaining teams team period ∧
          ∀ t' p', ¬(t' = team ∧ p' = period) →
            led'.consumed t' p' = led.consumed t' p') := by
  constructor
  · intro st hrun team period
    unfold runSchedule at hrun
    cases htop : topoSort tasks with
    | error e => rw [htop] at hrun; cases hrun
    | ok order =>
      rw [htop] at hrun
      simp only [Except.ok.injEq] at hrun
      subst hrun
      exact runFold_within teams cal maxPeriods projectStart tasks order
        ⟨[], [], CapacityLedger.empty⟩ (fun _ _ => Nat.zero_le _) team period
  · intro team fuel period workload led first hlt
    have hmin : min (led.remaining teams team period) workload =
        led.remaining teams team period := by omega
    refine ⟨⟨fun t p =>
      if t = team && p = period then
        led.consumed t p + led.remaining teams team period
      else led.consumed t p⟩, ?_, ?_, ?_⟩
    · simp only [allocLoop, hmin]
      have halloc : led.allocate teams team period
          (led.remaining teams team period) = some ⟨fun t p =>
            if t = team && p = period then
              led.consumed t p + led.remaining teams team period
            else led.consumed t p⟩ := by
        simp [CapacityLedger.allocate]
      rw [halloc]
      dsimp only
      have hne : ¬(workload - led.remaining teams team period = 0) := by
        omega
      simp only [hne, if_neg, if_false]
    · simp
    · intro t' p' hne
      simp only
      have : ¬(t' = team && p' = period) = true := by
        simp only [Bool.and_eq_true, decide_eq_true_eq]
        tauto
      rw [if_neg this]

/-- Witness for C1: the empty run's final ledger respects capacity, and a
period holding 3 remaining hours against a 5-hour workload is filled
exactly and the 2-hour remainder spills to the next working day. -/
theorem capacity_leveling_witness :
    (∀ team period,
      (⟨[], [], CapacityLedger.empty⟩ : EngineState).ledger.consumed team
        period ≤ capacityOf [⟨0, 3⟩] team)
    ∧ ∃ led',
        allocLoop [⟨0, 3⟩] ⟨[], []⟩ 0 (4 + 1) 0 5 CapacityLedger.empty none =
          allocLoop [⟨0, 3⟩] ⟨[], []⟩ 0 4 (nextWorkingDay ⟨[], []⟩ (0 + 1))
            (5 - CapacityLedger.empty.remaining [⟨0, 3⟩] 0 0) led'
            (match (none : Option Nat) with
              | none => if 0 < CapacityLedger.empty.remaining [⟨0, 3⟩] 0 0
                  then some 0 else none
              | some q => some q) ∧
        led'.consumed 0 0 = CapacityLedger.empty.consumed 0 0 +
          CapacityLedger.empty.remaining [⟨0, 3⟩] 0 0 ∧
        ∀ t' p', ¬(t' = 0 ∧ p' = 0) →
          led'.consumed t' p' = CapacityLedger.empty.consumed t' p' :=
  ⟨(capacity_leveling [] [⟨0, 3⟩] 0 ⟨[], []⟩ 1).1
      ⟨[], [], CapacityLedger.empty⟩
      (by simp [runSchedule, topoSort, visitMany, engineFold]),
    (capacity_leveling [] [⟨0, 3⟩] 0 ⟨[], []⟩ 1).2 0 4 0 5
      CapacityLedger.empty none (by decide)⟩

/-! ### Dependency Graph Builder lemmas -/

/-- The dependency edge relation: task `a` depends on task `b`. -/
def depends (tasks : List Task) (a b : Nat) : Prop :=
  ∃ t ∈ tasks, t.id = a ∧ b ∈ t.dependencies

/-- Every referenced dependency identifier names an existing task. -/
def depsClosed (tasks : List Task) : Prop :=
  ∀ t ∈ tasks, ∀ d ∈ t.dependencies, ∃ t' ∈ tasks, t'.id = d

/-- The invariant of the DFS `order` accumulator: no duplicates, and every
recorded task's dependencies are recorded strictly earlier. -/
def orderInv (tasks : List Task) (order : List Nat) : Prop :=
  order.Nodup ∧ ∀ id ∈ order, ∀ t ∈ tasks, t.id = id →
    ∀ d ∈ t.dependencies, d ∈ order ∧ order.indexOf d < order.indexOf id

theorem nodup_length_le {l l' : List Nat} (h : l.Nodup) (hs : l ⊆ l') :
    l.length ≤ l'.length := by
  calc l.length = l.toFinset.card := (List.toFinset_card_of_nodup h).symm
    _ ≤ l'.toFinset.card := Finset.card_le_card (fun x hx => by
        simp only [List.mem_toFinset] at hx ⊢; exact hs hx)
    _ ≤ l'.length := l'.toFinset_card_le

theorem findTask_mem {tasks : List Task} {id : Nat} {t : Task}
    (h : findTask tasks id = some t) : t ∈ tasks ∧ t.id = id := by
  unfold findTask at h
  refine ⟨List.mem_of_find?_eq_some h, ?_⟩
  have := List.find?_some h
  simpa using this

theorem findTask_unique {tasks : List Task}
    (hnodup : (tasks.map Task.id).Nodup) {id : Nat} {t t' : Task}
    (hfind : findTask tasks id = some t) (ht' : t' ∈ tasks)
    (hid : t'.id = id) : t' = t := by
  induction tasks with
  | nil => cases ht'
  | cons u rest ih =>
    simp only [List.map_cons, List.nodup_cons] at hnodup
    rcases List.mem_cons.mp ht' with rfl | hmem
    · unfold findTask at hfind
      rw [List.find?_cons_of_pos _ (by simp [hid])] at hfind
      simpa using hfind
    · by_cases hu : u.id = id
      · exfalso
        apply hnodup.1
        rw [hu, ← hid]
        exact List.mem_map_of_mem Task.id hmem
      · unfold findTask at hfind
        rw [List.find?_cons_of_neg _ (by simp [hu])] at hfind
        exact ih hnodup.2 hfind hmem

theorem findTask_exists {tasks : List Task} {id : Nat}
    (h : ∃ t ∈ tasks, t.id = id) : findTask tasks id ≠ none := by
  intro hnone
  unfold findTask at hnone
  rw [List.find?_eq_none] at hnone
  obtain ⟨t, ht, hid⟩ := h
  exact hnone t ht (by simp [hid])

theorem mem_of_indexOf_lt_append {done rest : List Nat} {d : Nat}
    (h : (done ++ rest).indexOf d < done.length) : d ∈ done := by
  by_contra hd
  rw [List.indexOf_append_of_not_mem hd] at h
  omega

theorem nodup_middle_not_mem {done todo : List Nat} {id : Nat}
    (h : (done ++ id :: todo).Nodup) : id ∉ done ∧ id ∉ todo := by
  rw [List.nodup_append] at h
  obtain ⟨h1, h2, h3⟩ := h
  rw [List.nodup_cons] at h2
  exact ⟨fun hmem => h3 hmem (List.mem_cons_self id todo), h2.1⟩

theorem indexOf_head_middle {done todo : List Nat} {id : Nat}
    (hid : id ∉ done) : (done ++ id :: todo).indexOf id = done.length := by
  rw [List.indexOf_append_of_not_mem hid]
  simp

theorem visitMany_avoid (tasks : List Task) :
    ∀ fuel (ids visiting order order' : List Nat),
      visitMany tasks fuel visiting order ids = Except.ok order' →
      ∀ v ∈ visiting, v ∉ order → v ∉ order' := by
  intro fuel
  induction fuel with
  | zero =>
    intro ids
    induction ids with
    | nil =>
      intro visiting order order' h v hv hvo
      simp only [visitMany, Except.ok.injEq] at h
      subst h; exact hvo
    | cons id rest ih =>
      intro visiting order order' h v hv hvo
      simp only [visitMany] at h
      by_cases hidv : id ∈ visiting
      · rw [if_pos hidv] at h; cases h
      · rw [if_neg hidv] at h
        by_cases hido : id ∈ order
        · rw [if_pos hido] at h
          exact ih visiting order order' h v hv hvo
        · rw [if_neg hido] at h; cases h
  | succ fuel ihf =>
    intro ids
    induction ids with
    | nil =>
      intro visiting order order' h v hv hvo
      simp only [visitMany, Except.ok.injEq] at h
      subst h; exact hvo
    | cons id rest ih =>
      intro visiting order order' h v hv hvo
      simp only [visitMany] at h
      by_cases hidv : id ∈ visiting
      · rw [if_pos hidv] at h; cases h
      · rw [if_neg hidv] at h
        by_cases hido : id ∈ order
        · rw [if_pos hido] at h
          exact ih visiting order order' h v hv hvo
        · rw [if_neg hido] at h
          cases hfind : findTask tasks id with
          | none => rw [hfind] at h; cases h
          | some t =>
            rw [hfind] at h
            dsimp only at h
            cases hw : visitMany tasks fuel (id :: visiting) order
                t.dependencies with
            | error e => rw [hw] at h; cases h
            | ok w =>
              rw [hw] at h
              have hvw : v ∉ w := ihf t.dependencies (id :: visiting) order w
                hw v (List.mem_cons_of_mem id hv) hvo
              have hvid : v ≠ id := fun hh => hidv (hh ▸ hv)
              have hv2 : v ∉ w ++ [id] := by simp [hvw, hvid]
              exact ih visiting (w ++ [id]) order' h v hv hv2

theorem visitMany_sound (tasks : List Task)
    (hnodup : (tasks.map Task.id).Nodup) :
    ∀ fuel (ids visiting order order' : List Nat),
      visitMany tasks fuel visiting order ids = Except.ok order' →
      orderInv tasks order →
      orderInv tasks order' ∧ order <+: order' ∧ ∀ i ∈ ids, i ∈ order' := by
  intro fuel
  induction fuel with
  | zero =>
    intro ids
    induction ids with
    | nil =>
      intro visiting order order' h hinv
      simp only [visitMany, Except.ok.injEq] at h
      subst h
      exact ⟨hinv, List.prefix_refl order, by simp⟩
    | cons id rest ih =>
      intro visiting order order' h hinv
      simp only [visitMany] at h
      by_cases hidv : id ∈ visiting
      · rw [if_pos hidv] at h; cases h
      · rw [if_neg hidv] at h
        by_cases hido : id ∈ order
        · rw [if_pos hido] at h
          obtain ⟨hinv', hpre, hall⟩ := ih visiting order order' h hinv
          refine ⟨hinv', hpre, ?_⟩
          intro i hi
          rcases List.mem_cons.mp hi with rfl | hi'
          · exact hpre.subset hido
          · exact hall i hi'
        · rw [if_neg hido] at h; cases h
  | succ fuel ihf =>
    intro ids
    induction ids with
    | nil =>
      intro visiting order order' h hinv
      simp only [visitMany, Except.ok.injEq] at h
      subst h
      exact ⟨hinv, List.prefix_refl order, by simp⟩
    | cons id rest ih =>
      intro visiting order order' h hinv
      simp only [visitMany] at h
      by_cases hidv : id ∈ visiting
      · rw [if_pos hidv] at h; cases h
      · rw [if_neg hidv] at h
        by_cases hido : id ∈ order
        · rw [if_pos hido] at h
          obtain ⟨hinv', hpre, hall⟩ := ih visiting order order' h hinv
          refine ⟨hinv', hpre, ?_⟩
          intro i hi
          rcases List.mem_cons.mp hi with rfl | hi'
          · exact hpre.subset hido
          · exact hall i hi'
        · rw [if_neg hido] at h
          cases hfind : findTask tasks id with
          | none => rw [hfind] at h; cases h
          | some t =>
            rw [hfind] at h
            dsimp only at h
            cases hw : visitMany tasks fuel (id :: visiting) order
                t.dependencies with
            | error e => rw [hw] at h; cases h
            | ok w =>
              rw [hw] at h
              obtain ⟨hinvW, hpreW, hdepsW⟩ :=
                ihf t.dependencies (id :: visiting) order w hw hinv
              have hidW : id ∉ w := visitMany_avoid tasks fuel t.dependencies
                (id :: visiting) order w hw id (List.mem_cons_self id visiting)
                hido
              obtain ⟨ht_mem, ht_id⟩ := findTask_mem hfind
              have hinv2 : orderInv tasks (w ++ [id]) := by
                constructor
                · rw [List.nodup_append]
                  refine ⟨hinvW.1, List.nodup_singleton id, ?_⟩
                  intro a ha hb
                  simp only [List.mem_singleton] at hb
                  subst hb
                  exact hidW ha
                · intro id' hid' t' ht' hteq d hd
                  rcases List.mem_append.mp hid' with hidw' | hid1
                  · obtain ⟨hdW, hidxW⟩ := hinvW.2 id' hidw' t' ht' hteq d hd
                    refine ⟨List.mem_append_left _ hdW, ?_⟩
                    rw [List.indexOf_append_of_mem hdW,
                      List.indexOf_append_of_mem hidw']
                    exact hidxW
                  · have hid'' : id' = id := by simpa using hid1
                    subst hid''
                    have ht'eq : t' = t := findTask_unique hnodup hfind ht' hteq
                    subst ht'eq
                    have hdW : d ∈ w := hdepsW d hd
                    refine ⟨List.mem_append_left _ hdW, ?_⟩
                    rw [List.indexOf_append_of_mem hdW,
                      List.indexOf_append_of_not_mem hidW]
                    have hlt := List.indexOf_lt_length.mpr hdW
                    omega
              obtain ⟨hinv', hpre', hall'⟩ := ih visiting (w ++ [id]) order' h
                hinv2
              refine ⟨hinv', ?_, ?_⟩
              · exact hpreW.trans ((w.prefix_append [id]).trans hpre')
              · intro i hi
                rcases List.mem_cons.mp hi with rfl | hi'
                · exact hpre'.subset (List.mem_append_right w (by simp))
                · exact hall' i hi'

theorem topoSort_sound (tasks : List Task)
    (hnodup : (tasks.map Task.id).Nodup) (order : List Nat)
    (h : topoSort tasks = Except.ok order) :
    order.Nodup ∧ (∀ t ∈ tasks, t.id ∈ order) ∧
      ∀ t ∈ tasks, ∀ d ∈ t.dependencies,
        d ∈ order ∧ order.indexOf d < order.indexOf t.id := by
  unfold topoSort at h
  obtain ⟨hinv, _, hall⟩ := visitMany_sound tasks hnodup (tasks.length + 1)
    (tasks.map Task.id) [] [] order h ⟨List.nodup_nil, by simp⟩
  have hmem : ∀ t ∈ tasks, t.id ∈ order := fun t ht =>
    hall t.id (List.mem_map_of_mem Task.id ht)
  exact ⟨hinv.1, hmem, fun t ht d hd =>
    hinv.2 t.id (hmem t ht) t ht rfl d hd⟩

theorem visitMany_no_missing (tasks : List Task)
    (hclosed : depsClosed tasks) :
    ∀ fuel (ids visiting order : List Nat),
      (∀ i ∈ ids, ∃ t ∈ tasks, t.id = i) →
      ∀ x, visitMany tasks fuel visiting order ids ≠
        Except.error (GraphError.missingDep x) := by
  intro fuel
  induction fuel with
  | zero =>
    intro ids
    induction ids with
    | nil => intro visiting order _ x h; simp [visitMany] at h
    | cons id rest ih =>
      intro visiting order hids x h
      simp only [visitMany] at h
      by_cases hidv : id ∈ visiting
      · rw [if_pos hidv] at h; cases h
      · rw [if_neg hidv] at h
        by_cases hido : id ∈ order
        · rw [if_pos hido] at h
          exact ih visiting order
            (fun i hi => hids i (List.mem_cons_of_mem id hi)) x h
        · rw [if_neg hido] at h; cases h
  | succ fuel ihf =>
    intro ids
    induction ids with
    | nil => intro visiting order _ x h; simp [visitMany] at h
    | cons id rest ih =>
      intro visiting order hids x h
      simp only [visitMany] at h
      by_cases hidv : id ∈ visiting
      · rw [if_pos hidv] at h; cases h
      · rw [if_neg hidv] at h
        by_cases hido : id ∈ order
        · rw [if_pos hido] at h
          exact ih visiting order
            (fun i hi => hids i (List.mem_cons_of_mem id hi)) x h
        · rw [if_neg hido] at h
          cases hfind : findTask tasks id with
          | none =>
            exact findTask_exists (hids id (List.mem_cons_self id rest)) hfind
          | some t =>
            rw [hfind] at h
            dsimp only at h
            obtain ⟨ht_mem, _⟩ := findTask_mem hfind
            cases hw : visitMany tasks fuel (id :: visiting) order
                t.dependencies with
            | error e =>
              rw [hw] at h
              cases h
              exact ihf t.dependencies (id :: visiting) order
                (fun d hd => hclosed t ht_mem d hd) x hw
            | ok w =>
              rw [hw] at h
              exact ih visiting (w ++ [id])
                (fun i hi => hids i (List.mem_cons_of_mem id hi)) x h

theorem chain_descend (R : Nat → Nat → Prop) :
    ∀ (l : List Nat) (a : Nat),
      List.Chain' (fun p q => R q p) (a :: l) →
      ∀ x ∈ l, Relation.TransGen R x a := by
  intro l
  induction l with
  | nil => intro a _ x hx; cases hx
  | cons b l' ih =>
    intro a hch x hx
    rw [List.chain'_cons] at hch
    rcases List.mem_cons.mp hx with rfl | hx'
    · exact Relation.TransGen.single hch.1
    · exact Relation.TransGen.tail (ih b hch.2 x hx') hch.1

theorem cycle_participation (R : Nat → Nat → Prop) (l : List Nat) (a : Nat)
    (hchain : List.Chain' (fun p q => R q p) (l ++ [a]))
    (hclose : ∀ v, (l ++ [a]).head? = some v → R v a) :
    ∀ x ∈ l ++ [a], Relation.TransGen R x x := by
  intro x hx
  cases l with
  | nil =>
    simp only [List.nil_append, List.mem_singleton] at hx
    subst hx
    exact Relation.TransGen.single (hclose x rfl)
  | cons h l₀ =>
    have hcl : R h a := hclose h rfl
    have hch : List.Chain' (fun p q => R q p) (h :: (l₀ ++ [a])) := hchain
    have hdesc := chain_descend R (l₀ ++ [a]) h hch
    have haR : a ∈ l₀ ++ [a] := List.mem_append_right _ (by simp)
    have hhh : Relation.TransGen R h h :=
      Relation.TransGen.head hcl (hdesc a haR)
    rcases List.mem_cons.mp (hx : x ∈ h :: (l₀ ++ [a])) with rfl | hx'
    · exact hhh
    · have hxh : Relation.TransGen R x h := hdesc x hx'
      have hxa : Relation.TransGen R x a := Relation.TransGen.tail hxh hcl
      rcases List.mem_append.mp hx' with hxl | hxa1
      · obtain ⟨P, S, rfl⟩ := List.append_of_mem hxl
        have hshape : h :: ((P ++ x :: S) ++ [a]) =
            (h :: P) ++ (x :: (S ++ [a])) := by simp
        have hch2 : List.Chain' (fun p q => R q p) (x :: (S ++ [a])) := by
          have hch3 := hch
          rw [hshape] at hch3
          exact (List.chain'_append.mp hch3).2.1
        have hax : Relation.TransGen R a x :=
          chain_descend R (S ++ [a]) x hch2 a
            (List.mem_append_right _ (by simp))
        exact Relation.TransGen.trans hxa hax
      · have hxa' : x = a := by simpa using hxa1
        subst hxa'
        exact hxa

theorem dropWhile_head_false {p : Nat → Bool} :
    ∀ (l : List Nat) (b : Nat) (bs : List Nat),
      l.dropWhile p = b :: bs → p b = false := by
  intro l
  induction l with
  | nil => intro b bs h; cases h
  | cons c l' ih =>
    intro b bs h
    rw [List.dropWhile_cons] at h
    by_cases hc : p c = true
    · rw [if_pos hc] at h
      exact ih b bs h
    · rw [if_neg hc] at h
      cases h
      exact Bool.not_eq_true _ ▸ (by simpa using hc)

theorem dropWhile_ne_nil_of_mem {p : Nat → Bool} {a : Nat} :
    ∀ {l : List Nat}, a ∈ l → p a = false → l.dropWhile p ≠ [] := by
  intro l
  induction l with
  | nil => intro ha; cases ha
  | cons c l' ih =>
    intro ha hpa h
    rw [List.dropWhile_cons] at h
    by_cases hc : p c = true
    · rw [if_pos hc] at h
      rcases List.mem_cons.mp ha with rfl | ha'
      · rw [hpa] at hc; cases hc
      · exact ih ha' hpa h
    · rw [if_neg hc] at h
      cases h

theorem head_append_middle (L : List Nat) (id : Nat) (R' : List Nat) :
    (L ++ [id]).head? = (L ++ id :: R').head? := by
  cases L <;> rfl

theorem visitMany_cyclic_spec (tasks : List Task) :
    ∀ fuel (ids visiting order : List Nat) (l : List Nat),
      visitMany tasks fuel visiting order ids =
        Except.error (GraphError.cyclic l) →
      visiting.Nodup →
      (∀ v ∈ visiting, ∃ t ∈ tasks, t.id = v) →
      tasks.length + 1 ≤ fuel + visiting.length →
      List.Chain' (fun p q => depends tasks q p) visiting →
      (∀ i ∈ ids, ∀ v, visiting.head? = some v → depends tasks v i) →
      l ≠ [] ∧ ∀ x ∈ l, Relation.TransGen (depends tasks) x x := by
  intro fuel
  induction fuel with
  | zero =>
    intro ids
    induction ids with
    | nil => intro visiting order l h; simp [visitMany] at h
    | cons id rest ih =>
      intro visiting order l h hnodupV hmemV hfuel hchain hwork
      have hsub : visiting ⊆ tasks.map Task.id := by
        intro v hv
        obtain ⟨t, ht, hid⟩ := hmemV v hv
        exact hid ▸ List.mem_map_of_mem Task.id ht
      have hlen := nodup_length_le hnodupV hsub
      rw [List.length_map] at hlen
      omega
  | succ fuel ihf =>
    intro ids
    induction ids with
    | nil => intro visiting order l h; simp [visitMany] at h
    | cons id rest ih =>
      intro visiting order l h hnodupV hmemV hfuel hchain hwork
      simp only [visitMany] at h
      by_cases hidv : id ∈ visiting
      · rw [if_pos hidv] at h
        simp only [Except.error.injEq, GraphError.cyclic.injEq] at h
        subst h
        have hpid : (fun x => decide (x ≠ id)) id = false := by simp
        have hne : visiting.dropWhile (fun x => decide (x ≠ id)) ≠ [] :=
          dropWhile_ne_nil_of_mem hidv hpid
        obtain ⟨h₀, R', hdrop⟩ : ∃ h₀ R',
            visiting.dropWhile (fun x => decide (x ≠ id)) = h₀ :: R' := by
          cases hd : visiting.dropWhile (fun x => decide (x ≠ id)) with
          | nil => exact absurd hd hne
          | cons a b => exact ⟨a, b, rfl⟩
        have hh0 : h₀ = id := by
          have := dropWhile_head_false visiting h₀ R' hdrop
          simpa using this
        rw [hh0] at hdrop
        have heq : (visiting.takeWhile fun x => decide (x ≠ id)) ++
            id :: R' = visiting := by
          rw [← hdrop]
          exact List.takeWhile_append_dropWhile _ _
        have hch2 : List.Chain' (fun p q => depends tasks q p)
            (((visiting.takeWhile fun x => decide (x ≠ id)) ++ [id]) ++ R')
            := by
          rw [show ((visiting.takeWhile fun x => decide (x ≠ id)) ++ [id]) ++
              R' = (visiting.takeWhile fun x => decide (x ≠ id)) ++ id :: R'
            by simp]
          rw [heq]
          exact hchain
        have hchL := (List.chain'_append.mp hch2).1
        have hclose : ∀ v,
            ((visiting.takeWhile fun x => decide (x ≠ id)) ++ [id]).head? =
              some v → depends tasks v id := by
          intro v hv
          rw [head_append_middle _ id R'] at hv
          rw [heq] at hv
          exact hwork id (List.mem_cons_self id rest) v hv
        refine ⟨by simp, ?_⟩
        exact cycle_participation (depends tasks) _ id hchL hclose
      · rw [if_neg hidv] at h
        by_cases hido : id ∈ order
        · rw [if_pos hido] at h
          exact ih visiting order l h hnodupV hmemV hfuel hchain
            (fun i hi => hwork i (List.mem_cons_of_mem id hi))
        · rw [if_neg hido] at h
          cases hfind : findTask tasks id with
          | none => rw [hfind] at h; cases h
          | some t =>
            rw [hfind] at h
            dsimp only at h
            obtain ⟨ht_mem, ht_id⟩ := findTask_mem hfind
            cases hw : visitMany tasks fuel (id :: visiting) order
                t.dependencies with
            | error e =>
              rw [hw] at h
              cases h
              refine ihf t.dependencies (id :: visiting) order l hw ?_ ?_ ?_
                ?_ ?_
              · exact List.nodup_cons.mpr ⟨hidv, hnodupV⟩
              · intro v hv
                rcases List.mem_cons.mp hv with rfl | hv'
                · exact ⟨t, ht_mem, ht_id⟩
                · exact hmemV v hv'
              · simp only [List.length_cons]
                omega
              · cases hvis : visiting with
                | nil => simp
                | cons v vs =>
                  rw [List.chain'_cons]
                  constructor
                  · exact hwork id (List.mem_cons_self id rest) v
                      (by rw [hvis]; rfl)
                  · rw [hvis] at hchain; exact hchain
              · intro i hi v hv
                simp only [List.head?_cons, Option.some.injEq] at hv
                subst hv
                exact ⟨t, ht_mem, ht_id, hi⟩
            | ok w =>
              rw [hw] at h
              exact ih visiting (w ++ [id]) l h hnodupV hmemV hfuel hchain
                (fun i hi => hwork i (List.mem_cons_of_mem id hi))

/-- C4: cycle rejection with run-level atomicity — with unique task
identifiers and every referenced dependency present, any dependency cycle
makes the whole run fail with a `CyclicDependencyError` naming a non-empty
set of task identifiers, each of which genuinely lies on a dependency
cycle; the run returns no ScheduleEntry for any task. -/
theorem cycle_rejection (tasks : List Task) (teams : List TeamConfig)
    (projectStart : Nat) (cal : CalendarConfig) (maxPeriods : Nat)
    (hnodup : (tasks.map Task.id).Nodup)
    (hclosed : depsClosed tasks)
    (hcycle : ∃ a, Relation.TransGen (depends tasks) a a) :
    ∃ ids, runSchedule tasks teams projectStart cal maxPeriods =
        Except.error (GraphError.cyclic ids) ∧
      ids ≠ [] ∧ ∀ x ∈ ids, Relation.TransGen (depends tasks) x x := by
  cases htop : topoSort tasks with
  | ok order =>
    exfalso
    obtain ⟨hordN, hmem, htopo⟩ := topoSort_sound tasks hnodup order htop
    obtain ⟨a, ha⟩ := hcycle
    have key : ∀ b, Relation.TransGen (depends tasks) a b →
        order.indexOf b < order.indexOf a := by
      intro b hb
      induction hb with
      | single h1 =>
        obtain ⟨t, ht, htid, hdep⟩ := h1
        have h2 := (htopo t ht _ hdep).2
        rw [htid] at h2
        exact h2
      | tail hab h1 ih =>
        obtain ⟨t, ht, htid, hdep⟩ := h1
        have h2 := (htopo t ht _ hdep).2
        rw [htid] at h2
        omega
    exact absurd (key a ha) (lt_irrefl _)
  | error e =>
    cases e with
    | missingDep x =>
      exfalso
      refine visitMany_no_missing tasks hclosed (tasks.length + 1)
        (tasks.map Task.id) [] [] ?_ x htop
      intro i hi
      obtain ⟨t, ht, rfl⟩ := List.mem_map.mp hi
      exact ⟨t, ht, rfl⟩
    | cyclic ids =>
      obtain ⟨hne, hpart⟩ := visitMany_cyclic_spec tasks (tasks.length + 1)
        (tasks.map Task.id) [] [] ids htop List.nodup_nil
        (by intro v hv; cases hv) (by simp) List.chain'_nil
        (by intro i _ v hv; cases hv)
      refine ⟨ids, ?_, hne, hpart⟩
      simp [runSchedule, htop]

/-- Witness for C4: the two-task cycle 1 → 2 → 1. -/
theorem cycle_rejection_witness :
    ∃ ids, runSchedule
        [⟨1, some 1, none, [2], 0, [], false⟩,
          ⟨2, some 1, none, [1], 0, [], false⟩] [⟨0, 8⟩] 0 ⟨[5, 6], []⟩ 10 =
        Except.error (GraphError.cyclic ids) ∧
      ids ≠ [] ∧ ∀ x ∈ ids, Relation.TransGen
        (depends [⟨1, some 1, none, [2], 0, [], false⟩,
          ⟨2, some 1, none, [1], 0, [], false⟩]) x x := by
  apply cycle_rejection
  · decide
  · unfold depsClosed; decide
  · exact ⟨1, Relation.TransGen.tail (Relation.TransGen.single
      (show depends _ 1 2 by unfold depends; decide))
      (show depends _ 2 1 by unfold depends; decide)⟩

/-! ### Scheduling Engine ordering lemmas -/

/-- The dependency-ordering property over a set of committed entries: a
depender's start date is at or after each of its dependencies' end dates. -/
def pairRespects (tasks : List Task) (entries : List ScheduleEntry) : Prop :=
  ∀ eA ∈ entries, ∀ eB ∈ entries, ∀ tA ∈ tasks, tA.id = eA.taskId →
    eB.taskId ∈ tA.dependencies → eB.endDate ≤ eA.startDate

theorem find_entry_unique :
    ∀ (entries : List ScheduleEntry),
      (entries.map ScheduleEntry.taskId).Nodup →
      ∀ e ∈ entries,
        entries.find? (fun x => x.taskId = e.taskId) = some e := by
  intro entries
  induction entries with
  | nil => intro _ e he; cases he
  | cons u rest ih =>
    intro hnd e he
    simp only [List.map_cons, List.nodup_cons] at hnd
    rcases List.mem_cons.mp he with rfl | hmem
    · rw [List.find?_cons_of_pos _ (by simp)]
    · by_cases hu : u.taskId = e.taskId
      · exfalso
        apply hnd.1
        rw [hu]
        exact List.mem_map_of_mem _ hmem
      · rw [List.find?_cons_of_neg _ (by simp [hu])]
        exact ih hnd.2 e hmem

theorem allocLoop_start (teams : List TeamConfig) (cal : CalendarConfig)
    (team : Nat) :
    ∀ fuel period workload led first out,
      allocLoop teams cal team fuel period workload led first = some out →
      (first = none → period ≤ out.startPeriod) ∧
      (∀ q, first = some q → out.startPeriod = q) := by
  intro fuel
  induction fuel with
  | zero => intro _ _ _ _ out h; simp [allocLoop] at h
  | succ fuel ih =>
    intro period workload led first out h
    simp only [allocLoop] at h
    have halloc : led.allocate teams team period
        (min (led.remaining teams team period) workload) = some ⟨fun t p =>
          if t = team && p = period then led.consumed t p +
            min (led.remaining teams team period) workload
          else led.consumed t p⟩ := by
      simp [CapacityLedger.allocate, inf_le_left]
    rw [halloc] at h
    dsimp only at h
    by_cases hdone :
        workload - min (led.remaining teams team period) workload = 0
    · rw [if_pos hdone] at h
      cases h
      constructor
      · intro hf; subst hf
        dsimp only
        by_cases hamt : 0 < min (led.remaining teams team period) workload
        · rw [if_pos hamt]; simp
        · rw [if_neg hamt]; simp
      · intro q hf; subst hf; simp
    · rw [if_neg hdone] at h
      constructor
      · intro hf; subst hf
        dsimp only at h
        by_cases hamt : 0 < min (led.remaining teams team period) workload
        · rw [if_pos hamt] at h
          have := (ih _ _ _ _ out h).2 period rfl
          omega
        · rw [if_neg hamt] at h
          have h1 := (ih _ _ _ _ out h).1 rfl
          have h2 := nextWorkingDay_ge cal (period + 1)
          omega
      · intro q hf; subst hf
        dsimp only at h
        exact (ih _ _ _ _ out h).2 q rfl

theorem earliestStart_go (st : EngineState) :
    ∀ (deps : List Nat) (acc : Nat),
      acc ≤ deps.foldl (fun a d =>
        match findEntry st d with
        | some e => max a e.endDate
        | none => a) acc ∧
      (∀ d ∈ deps, ∀ e, findEntry st d = some e →
        e.endDate ≤ deps.foldl (fun a d =>
          match findEntry st d with
          | some e => max a e.endDate
          | none => a) acc) ∧
      (deps.foldl (fun a d =>
          match findEntry st d with
          | some e => max a e.endDate
          | none => a) acc = acc ∨
        ∃ d ∈ deps, ∃ e, findEntry st d = some e ∧
          deps.foldl (fun a d =>
            match findEntry st d with
            | some e => max a e.endDate
            | none => a) acc = e.endDate) := by
  intro deps
  induction deps with
  | nil =>
    intro acc
    exact ⟨Nat.le_refl acc, fun d hd => absurd hd (by simp), Or.inl rfl⟩
  | cons d ds ih =>
    intro acc
    simp only [List.foldl_cons]
    cases hfe : findEntry st d with
    | none =>
      dsimp only
      obtain ⟨ih1, ih2, ih3⟩ := ih acc
      refine ⟨ih1, ?_, ?_⟩
      · intro d' hd' e' hfe'
        rcases List.mem_cons.mp hd' with rfl | hd''
        · rw [hfe] at hfe'; cases hfe'
        · exact ih2 d' hd'' e' hfe'
      · rcases ih3 with h | ⟨d', hd', e', hfe', heq⟩
        · exact Or.inl h
        · exact Or.inr ⟨d', List.mem_cons_of_mem d hd', e', hfe', heq⟩
    | some e =>
      dsimp only
      obtain ⟨ih1, ih2, ih3⟩ := ih (max acc e.endDate)
      refine ⟨Nat.le_trans (Nat.le_max_left acc e.endDate) ih1, ?_, ?_⟩
      · intro d' hd' e' hfe'
        rcases List.mem_cons.mp hd' with rfl | hd''
        · rw [hfe] at hfe'
          cases hfe'
          exact Nat.le_trans (Nat.le_max_right acc e.endDate) ih1
        · exact ih2 d' hd'' e' hfe'
      · rcases ih3 with h | ⟨d', hd', e', hfe', heq⟩
        · rw [h]
          rcases Nat.le_total acc e.endDate with hle | hle
          · exact Or.inr ⟨d, List.mem_cons_self d ds, e, hfe,
              Nat.max_eq_right hle⟩
          · exact Or.inl (Nat.max_eq_left hle)
        · exact Or.inr ⟨d', List.mem_cons_of_mem d hd', e', hfe', heq⟩

theorem earliestStart_spec (st : EngineState) (projectStart : Nat)
    (deps : List Nat) :
    projectStart ≤ earliestStart st projectStart deps ∧
    (∀ d ∈ deps, ∀ e, findEntry st d = some e →
      e.endDate ≤ earliestStart st projectStart deps) ∧
    (earliestStart st projectStart deps = projectStart ∨
      ∃ d ∈ deps, ∃ e, findEntry st d = some e ∧
        earliestStart st projectStart deps = e.endDate) :=
  earliestStart_go st deps projectStart

theorem scheduleTask_entries (teams : List TeamConfig) (cal : CalendarConfig)
    (maxPeriods projectStart : Nat) (st : EngineState) (t : Task) :
    (scheduleTask teams cal maxPeriods projectStart st t).entries =
      st.entries ∨
    ∃ eNew, (scheduleTask teams cal maxPeriods projectStart st t).entries =
        st.entries ++ [eNew] ∧ eNew.taskId = t.id ∧
      earliestStart st projectStart t.dependencies ≤ eNew.startDate := by
  unfold scheduleTask
  by_cases hdep : (t.dependencies.any fun d => isUnschedulable st d) = true
  · rw [if_pos hdep]; exact Or.inl rfl
  · rw [if_neg hdep]
    by_cases hms : t.milestone = true
    · simp only [hms, if_pos]
      exact Or.inr ⟨_, rfl, rfl, Nat.le_refl _⟩
    · simp only [hms, Bool.false_eq_true, if_false]
      cases hres : resolveEstimate t with
      | error _ => exact Or.inl rfl
      | ok w =>
        dsimp only
        by_cases hq : w.quantity = 0
        · rw [if_pos hq]; exact Or.inl rfl
        · rw [if_neg hq]
          cases hloop : allocLoop teams cal t.teamId maxPeriods
              (nextWorkingDay cal (earliestStart st projectStart
                t.dependencies)) w.quantity st.ledger none with
          | none => exact Or.inl rfl
          | some out =>
            dsimp only
            refine Or.inr ⟨_, rfl, rfl, ?_⟩
            have h1 := (allocLoop_start teams cal t.teamId maxPeriods _ _ _
              _ out hloop).1 rfl
            have h2 := nextWorkingDay_ge cal
              (earliestStart st projectStart t.dependencies)
            dsimp only
            omega

theorem engineFold_pairs (tasks : List Task) (teams : List TeamConfig)
    (cal : CalendarConfig) (maxPeriods projectStart : Nat)
    (hnodup : (tasks.map Task.id).Nodup)
    (order : List Nat) (hordN : order.Nodup)
    (htopo : ∀ t ∈ tasks, t.id ∈ order ∧ ∀ d ∈ t.dependencies,
        d ∈ order ∧ order.indexOf d < order.indexOf t.id) :
    ∀ (todo done : List Nat) (st : EngineState),
      order = done ++ todo →
      (∀ e ∈ st.entries, e.taskId ∈ done) →
      (st.entries.map ScheduleEntry.taskId).Nodup →
      pairRespects tasks st.entries →
      (∀ e ∈ (engineFold tasks teams cal maxPeriods projectStart st
          todo).entries, e.taskId ∈ done ++ todo) ∧
      ((engineFold tasks teams cal maxPeriods projectStart st
          todo).entries.map ScheduleEntry.taskId).Nodup ∧
      pairRespects tasks (engineFold tasks teams cal maxPeriods projectStart
        st todo).entries := by
  intro todo
  induction todo with
  | nil =>
    intro done st hsplit hK1 hK2 hK3
    simp only [engineFold, List.foldl_nil, List.append_nil]
    exact ⟨hK1, hK2, hK3⟩
  | cons id todo' ih =>
    intro done st hsplit hK1 hK2 hK3
    have hid := nodup_middle_not_mem (hsplit ▸ hordN)
    simp only [engineFold, List.foldl_cons]
    cases hfind : findTask tasks id with
    | none =>
      simp only [hfind]
      have hrec := ih (done ++ [id]) st (by rw [hsplit]; simp)
        (fun e he => List.mem_append_left _ (hK1 e he)) hK2 hK3
      simp only [engineFold] at hrec
      obtain ⟨c1, c2, c3⟩ := hrec
      exact ⟨fun e he => by simpa using c1 e he, c2, c3⟩
    | some t =>
      simp only [hfind]
      obtain ⟨ht_mem, ht_id⟩ := findTask_mem hfind
      rcases scheduleTask_entries teams cal maxPeriods projectStart st t with
        hent | ⟨eNew, hent, hidNew, hstart⟩
      · have hK1' : ∀ e ∈ (scheduleTask teams cal maxPeriods projectStart
            st t).entries, e.taskId ∈ done ++ [id] := by
          rw [hent]; exact fun e he => List.mem_append_left _ (hK1 e he)
        have hK2' : ((scheduleTask teams cal maxPeriods projectStart
            st t).entries.map ScheduleEntry.taskId).Nodup := by
          rw [hent]; exact hK2
        have hK3' : pairRespects tasks (scheduleTask teams cal maxPeriods
            projectStart st t).entries := by
          rw [hent]; exact hK3
        have hrec := ih (done ++ [id]) _ (by rw [hsplit]; simp) hK1' hK2' hK3'
        simp only [engineFold] at hrec
        obtain ⟨c1, c2, c3⟩ := hrec
        exact ⟨fun e he => by simpa using c1 e he, c2, c3⟩
      · have hKeys : ∀ e ∈ st.entries, e.taskId ≠ id := fun e he hh =>
          hid.1 (hh ▸ hK1 e he)
        have hK1' : ∀ e ∈ (scheduleTask teams cal maxPeriods projectStart
            st t).entries, e.taskId ∈ done ++ [id] := by
          rw [hent]
          intro e he
          rcases List.mem_append.mp he with hh | hh
          · exact List.mem_append_left _ (hK1 e hh)
          · have he' : e = eNew := by simpa using hh
            subst he'
            rw [hidNew, ht_id]
            exact List.mem_append_right _ (by simp)
        have hK2' : ((scheduleTask teams cal maxPeriods projectStart
            st t).entries.map ScheduleEntry.taskId).Nodup := by
          rw [hent, List.map_append, List.nodup_append]
          refine ⟨hK2, by simp, ?_⟩
          intro a ha hb
          obtain ⟨e, he, rfl⟩ := List.mem_map.mp ha
          have hb' : e.taskId = eNew.taskId := by simpa using hb
          apply hKeys e he
          rw [hb', hidNew, ht_id]
        have hK3' : pairRespects tasks (scheduleTask teams cal maxPeriods
            projectStart st t).entries := by
          rw [hent]
          intro eA hA eB hB tA htA htAid hBdep
          rcases List.mem_append.mp hA with hAo | hAn
          · rcases List.mem_append.mp hB with hBo | hBn
            · exact hK3 eA hAo eB hBo tA htA htAid hBdep
            · exfalso
              have heB : eB = eNew := by simpa using hBn
              subst heB
              have hdep2 : id ∈ tA.dependencies := by
                rw [← ht_id, ← hidNew]; exact hBdep
              have h3 := (htopo tA htA).2 id hdep2
              have hA1 : tA.id ∈ done := htAid ▸ hK1 eA hAo
              have hidxA : order.indexOf tA.id < done.length := by
                rw [hsplit, List.indexOf_append_of_mem hA1]
                exact List.indexOf_lt_length.mpr hA1
              have hidxid : order.indexOf id = done.length := by
                rw [hsplit]; exact indexOf_head_middle hid.1
              omega
          · have heA : eA = eNew := by simpa using hAn
            have htA_eq : tA = t := by
              apply findTask_unique hnodup hfind htA
              rw [htAid, heA, hidNew, ht_id]
            rcases List.mem_append.mp hB with hBo | hBn
            · have hfe : findEntry st eB.taskId = some eB :=
                find_entry_unique st.entries hK2 eB hBo
              have hbound := (earliestStart_spec st projectStart
                t.dependencies).2.1 eB.taskId
                (by rw [← htA_eq]; exact hBdep) eB hfe
              rw [heA]
              omega
            · exfalso
              have heB : eB = eNew := by simpa using hBn
              have hdep2 : id ∈ tA.dependencies := by
                rw [← ht_id, ← hidNew, ← heB]; exact hBdep
              have h3 := (htopo tA htA).2 id hdep2
              rw [htA_eq, ht_id] at h3
              exact absurd h3.2 (lt_irrefl _)
        have hrec := ih (done ++ [id]) _ (by rw [hsplit]; simp) hK1' hK2' hK3'
        simp only [engineFold] at hrec
        obtain ⟨c1, c2, c3⟩ := hrec
        exact ⟨fun e he => by simpa using c1 e he, c2, c3⟩

/-- C2: dependency ordering — in any successful run (with unique task
identifiers), whenever task A lists task B among its dependencies and both
have ScheduleEntry records, A's resolved start date is at or after B's
resolved end date; and the engine's earliest possible start is exactly the
maximum of the project start date and the latest end date among the
dependencies' ScheduleEntry records (it bounds both from above and is
attained by one of them). -/
theorem dependency_ordering (tasks : List Task) (teams : List TeamConfig)
    (projectStart : Nat) (cal : CalendarConfig) (maxPeriods : Nat)
    (hnodup : (tasks.map Task.id).Nodup) :
    (∀ st, runSchedule tasks teams projectStart cal maxPeriods =
        Except.ok st →
      ∀ eA ∈ st.entries, ∀ eB ∈ st.entries, ∀ tA ∈ tasks,
        tA.id = eA.taskId → eB.taskId ∈ tA.dependencies →
        eB.endDate ≤ eA.startDate)
    ∧ (∀ (st : EngineState) (ps : Nat) (deps : List Nat),
        ps ≤ earliestStart st ps deps ∧
        (∀ d ∈ deps, ∀ e, findEntry st d = some e →
          e.endDate ≤ earliestStart st ps deps) ∧
        (earliestStart st ps deps = ps ∨
          ∃ d ∈ deps, ∃ e, findEntry st d = some e ∧
            earliestStart st ps deps = e.endDate)) := by
  constructor
  · intro st hrun
    unfold runSchedule at hrun
    cases htop : topoSort tasks with
    | error e => rw [htop] at hrun; cases hrun
    | ok order =>
      rw [htop] at hrun
      simp only [Except.ok.injEq] at hrun
      subst hrun
      obtain ⟨hordN, hmem, hdeps⟩ := topoSort_sound tasks hnodup order htop
      have := engineFold_pairs tasks teams cal maxPeriods projectStart hnodup
        order hordN (fun t ht => ⟨hmem t ht, hdeps t ht⟩) order []
        ⟨[], [], CapacityLedger.empty⟩ (by simp)
        (by intro e he; cases he) (by simp) (by intro eA hA; cases hA)
      exact this.2.2
  · intro st ps deps
    exact earliestStart_spec st ps deps

/-- Witness for C2: a concrete instance of the earliest-start bound. -/
theorem dependency_ordering_witness :
    5 ≤ earliestStart ⟨[], [], CapacityLedger.empty⟩ 5 [3] :=
  ((dependency_ordering [] [] 0 ⟨[], []⟩ 1 (by decide)).2
    ⟨[], [], CapacityLedger.empty⟩ 5 [3]).1
